import Mathlib

/-!
Verification of the chunk-based similarity detection and explainable
classification engine of the `hasnat0006/server` repository.

The definitions below are a shallow embedding of the JavaScript source:

* `normalize`, `chunkText` — `src/xai_module/src/util.js` (`normalize`, `chunkText`);
  the same `util.js` is imported by `src/src/search.js` and `src/src/ingest.js`.
* `searchDocument`, `ingestDocument` — `src/src/search.js` and `src/src/ingest.js`,
  with the Postgres store modelled as an explicit `Store` value and the SQL
  queries modelled as pure list operations.
* `classifyAcademicDocument`, `classifyVerificationDocument`,
  `detectForgeryIndicators` — `src/src/xai/xaiAnalyzer.js`.
* `searchDocumentX` — `src/xai_module/src/search.js`.

The SHA-256 digest (Node `crypto`) is an external primitive; every definition
that hashes takes the digest as an explicit function parameter `hashFn`,
so the theorems hold for every deterministic digest function.
JavaScript numbers are modelled as `ℚ` (the similarity scores and threshold
comparisons in scope are exact decimal fractions).
-/

namespace DocCheck

/-- Characters removed by `CONTROL_CHAR_REGEX = /[\x00-\x1F\x7F]+/g`
in `util.js`: the range 0x00–0x1F and 0x7F. -/
def isCtrl (c : Char) : Bool :=
  c.toNat ≤ 0x1F || c.toNat == 0x7F

/-- The character class matched by the JavaScript regex `\s`:
space, tab, line feed, vertical tab, form feed, carriage return,
NBSP, and the Unicode space separators plus BOM. -/
def isJsWs (c : Char) : Bool :=
  c.toNat == 0x20 || c.toNat == 0x09 || c.toNat == 0x0A ||
  (0x0B ≤ c.toNat && c.toNat ≤ 0x0D) || c.toNat == 0xA0 ||
  c.toNat == 0x1680 || (0x2000 ≤ c.toNat && c.toNat ≤ 0x200A) ||
  c.toNat == 0x2028 || c.toNat == 0x2029 || c.toNat == 0x202F ||
  c.toNat == 0x205F || c.toNat == 0x3000 || c.toNat == 0xFEFF

/-- Model of `String.replace(/\s+/g, ' ')`: every maximal run of `\s` characters is
replaced by a single space.  (A whitespace character is dropped when the next
character is also whitespace, so each maximal run contributes exactly one
space, at the position of its last character.) -/
def collapseWs : List Char → List Char
  | [] => []
  | [c] => if isJsWs c then [' '] else [c]
  | c :: d :: cs =>
    if isJsWs c && isJsWs d then collapseWs (d :: cs)
    else (if isJsWs c then ' ' else c) :: collapseWs (d :: cs)

/-- Model of `String.prototype.trim`: strip leading and trailing whitespace. -/
def trimWs (l : List Char) : List Char :=
  (l.dropWhile isJsWs).rdropWhile isJsWs

/-- Model of `String.prototype.toLowerCase` restricted to the Basic Latin letters
(the corpus and all claims in scope are ASCII; the mapping on A–Z is the
one the JavaScript engine applies). -/
def toLowerChar (c : Char) : Char :=
  if 65 ≤ c.toNat ∧ c.toNat ≤ 90 then Char.ofNat (c.toNat + 32) else c

/-- Model of `normalize` from `src/xai_module/src/util.js`, on the character list:
strip control characters, collapse whitespace runs to single spaces,
trim, lower-case — in that order. -/
def normalizeChars (l : List Char) : List Char :=
  (trimWs (collapseWs (l.filter (fun c => !isCtrl c)))).map toLowerChar

/-- Model of `normalize` from `src/xai_module/src/util.js`. -/
def normalize (s : String) : String :=
  ⟨normalizeChars s.data⟩

-- ### Basic facts about the character classes

theorem char_toNat_ofNat_valid {n : Nat} (h : n.isValidChar) :
    (Char.ofNat n).toNat = n := by
  rw [Char.ofNat, dif_pos h]
  rfl

theorem toLowerChar_toNat (c : Char) :
    (toLowerChar c).toNat = if 65 ≤ c.toNat ∧ c.toNat ≤ 90 then c.toNat + 32 else c.toNat := by
  unfold toLowerChar
  split
  · next h =>
    exact char_toNat_ofNat_valid (Or.inl (by omega))
  · rfl

theorem bool_eq_of_iff {a b : Bool} (h : a = true ↔ b = true) : a = b := by
  cases a <;> cases b <;> simp_all

theorem isJsWs_eq_true_iff (c : Char) : isJsWs c = true ↔
    (c.toNat = 0x20 ∨ c.toNat = 0x09 ∨ c.toNat = 0x0A ∨
     (0x0B ≤ c.toNat ∧ c.toNat ≤ 0x0D) ∨ c.toNat = 0xA0 ∨
     c.toNat = 0x1680 ∨ (0x2000 ≤ c.toNat ∧ c.toNat ≤ 0x200A) ∨
     c.toNat = 0x2028 ∨ c.toNat = 0x2029 ∨ c.toNat = 0x202F ∨
     c.toNat = 0x205F ∨ c.toNat = 0x3000 ∨ c.toNat = 0xFEFF) := by
  unfold isJsWs
  simp only [Bool.or_eq_true, Bool.and_eq_true, Nat.beq_eq_true_eq, decide_eq_true_eq]
  tauto

theorem isCtrl_eq_true_iff (c : Char) : isCtrl c = true ↔
    (c.toNat ≤ 0x1F ∨ c.toNat = 0x7F) := by
  unfold isCtrl
  simp [Bool.or_eq_true]

theorem isJsWs_toLowerChar (c : Char) : isJsWs (toLowerChar c) = isJsWs c := by
  apply bool_eq_of_iff
  rw [isJsWs_eq_true_iff, isJsWs_eq_true_iff, toLowerChar_toNat]
  split
  · next h => omega
  · exact Iff.rfl

theorem isCtrl_toLowerChar (c : Char) : isCtrl (toLowerChar c) = isCtrl c := by
  apply bool_eq_of_iff
  rw [isCtrl_eq_true_iff, isCtrl_eq_true_iff, toLowerChar_toNat]
  split
  · next h => omega
  · exact Iff.rfl

theorem toLowerChar_expand (d : Char) :
    toLowerChar d = if 65 ≤ d.toNat ∧ d.toNat ≤ 90 then Char.ofNat (d.toNat + 32) else d :=
  rfl

theorem toLowerChar_idem (c : Char) : toLowerChar (toLowerChar c) = toLowerChar c := by
  by_cases h : 65 ≤ c.toNat ∧ c.toNat ≤ 90
  · have ht : (toLowerChar c).toNat = c.toNat + 32 := by
      rw [toLowerChar_toNat, if_pos h]
    rw [toLowerChar_expand (toLowerChar c), if_neg]
    rw [ht]
    omega
  · have ht : toLowerChar c = c := by
      rw [toLowerChar_expand, if_neg h]
    rw [ht, ht]

-- ### Shape of the output of `collapseWs` and `trimWs`

theorem collapseWs_singleton (c : Char) :
    collapseWs [c] = if isJsWs c then [' '] else [c] := rfl

theorem collapseWs_cons2_ws {c d : Char} {cs : List Char}
    (hc : isJsWs c = true) (hd : isJsWs d = true) :
    collapseWs (c :: d :: cs) = collapseWs (d :: cs) := by
  have hb : (isJsWs c && isJsWs d) = true := by rw [hc, hd]; rfl
  simp only [collapseWs, hb, if_true]

theorem collapseWs_cons2_not {c d : Char} {cs : List Char}
    (h : ¬(isJsWs c = true ∧ isJsWs d = true)) :
    collapseWs (c :: d :: cs) =
      (if isJsWs c then ' ' else c) :: collapseWs (d :: cs) := by
  have hb : (isJsWs c && isJsWs d) = false := by
    cases hc : isJsWs c <;> cases hd : isJsWs d <;> simp_all
  simp only [collapseWs, hb, Bool.false_eq_true, if_false]

theorem collapseWs_cons_of_not_ws {d : Char} (cs : List Char) (hd : isJsWs d = false) :
    ∃ t, collapseWs (d :: cs) = d :: t := by
  cases cs with
  | nil => exact ⟨[], by rw [collapseWs_singleton, if_neg (by simp [hd])]⟩
  | cons e es =>
    refine ⟨collapseWs (e :: es), ?_⟩
    rw [collapseWs_cons2_not (by simp [hd]), if_neg (by simp [hd])]

theorem mem_collapseWs (l : List Char) :
    ∀ c ∈ collapseWs l, c = ' ' ∨ (c ∈ l ∧ isJsWs c = false) := by
  induction l with
  | nil => intro c hc; simp [collapseWs] at hc
  | cons c cs ih =>
    cases cs with
    | nil =>
      intro e he
      rw [collapseWs_singleton] at he
      by_cases hc : isJsWs c = true
      · rw [if_pos hc] at he
        simp at he
        exact Or.inl he
      · rw [if_neg hc] at he
        simp at he
        subst he
        exact Or.inr ⟨by simp, by simpa using hc⟩
    | cons d ds =>
      intro e he
      by_cases hcd : isJsWs c = true ∧ isJsWs d = true
      · rw [collapseWs_cons2_ws hcd.1 hcd.2] at he
        rcases ih e he with h1 | ⟨h2, h3⟩
        · exact Or.inl h1
        · exact Or.inr ⟨List.mem_cons_of_mem _ h2, h3⟩
      · rw [collapseWs_cons2_not hcd] at he
        rcases List.mem_cons.1 he with h1 | h1
        · by_cases hc : isJsWs c = true
          · rw [if_pos hc] at h1
            exact Or.inl h1
          · rw [if_neg hc] at h1
            subst h1
            exact Or.inr ⟨List.mem_cons_self _ _, by simpa using hc⟩
        · rcases ih e h1 with h2 | ⟨h2, h3⟩
          · exact Or.inl h2
          · exact Or.inr ⟨List.mem_cons_of_mem _ h2, h3⟩

theorem head?_dropWhile_ws (cs : List Char) :
    ∀ d ∈ (cs.dropWhile isJsWs).head?, isJsWs d = false := by
  intro d hd
  have h := List.head?_dropWhile_not isJsWs cs
  cases hh : (cs.dropWhile isJsWs).head? with
  | none => rw [hh] at hd; simp at hd
  | some x =>
    rw [hh] at hd h
    simp only [Option.mem_def, Option.some.injEq] at hd
    subst hd
    exact h

theorem chain'_collapseWs (l : List Char) :
    List.Chain' (fun a b => ¬(isJsWs a = true ∧ isJsWs b = true)) (collapseWs l) := by
  induction l with
  | nil => simp [collapseWs]
  | cons c cs ih =>
    cases cs with
    | nil =>
      rw [collapseWs_singleton]
      split <;> simp
    | cons d ds =>
      by_cases hcd : isJsWs c = true ∧ isJsWs d = true
      · rw [collapseWs_cons2_ws hcd.1 hcd.2]
        exact ih
      · rw [collapseWs_cons2_not hcd, List.chain'_cons']
        refine ⟨?_, ih⟩
        intro y hy
        by_cases hc : isJsWs c = true
        · have hd : isJsWs d = false := by
            rcases not_and_or.1 hcd with h | h
            · exact absurd hc h
            · simpa using h
          obtain ⟨t, hcw⟩ := collapseWs_cons_of_not_ws ds hd
          rw [hcw] at hy
          simp only [List.head?_cons, Option.mem_def, Option.some.injEq] at hy
          subst hy
          simp [hd]
        · rw [if_neg hc]
          have hc' : isJsWs c = false := by simpa using hc
          simp [hc']

theorem collapseWs_eq_self {l : List Char}
    (hsp : ∀ c ∈ l, isJsWs c = true → c = ' ')
    (hch : List.Chain' (fun a b => ¬(isJsWs a = true ∧ isJsWs b = true)) l) :
    collapseWs l = l := by
  induction l with
  | nil => simp [collapseWs]
  | cons c cs ih =>
    cases cs with
    | nil =>
      rw [collapseWs_singleton]
      by_cases hc : isJsWs c = true
      · rw [if_pos hc, hsp c (by simp) hc]
      · rw [if_neg hc]
    | cons d ds =>
      have hcd : ¬(isJsWs c = true ∧ isJsWs d = true) :=
        (List.chain'_cons'.1 hch).1 d (by simp)
      rw [collapseWs_cons2_not hcd]
      have htl := (List.chain'_cons'.1 hch).2
      have hsp' : ∀ x ∈ d :: ds, isJsWs x = true → x = ' ' :=
        fun x hx => hsp x (List.mem_cons_of_mem _ hx)
      rw [ih hsp' htl]
      by_cases hc : isJsWs c = true
      · rw [if_pos hc, hsp c (by simp) hc]
      · rw [if_neg hc]

theorem trimWs_eq_self {l : List Char}
    (h1 : ∀ c ∈ l.head?, isJsWs c = false)
    (h2 : ∀ c ∈ l.getLast?, isJsWs c = false) :
    trimWs l = l := by
  unfold trimWs
  have hd : l.dropWhile isJsWs = l := by
    cases l with
    | nil => rfl
    | cons c cs => exact List.dropWhile_cons_of_neg (by simp [h1 c (by simp)])
  rw [hd, List.rdropWhile_eq_self_iff]
  intro hl
  have hmem : l.getLast hl ∈ l.getLast? := by
    rw [List.getLast?_eq_getLast _ hl]
    simp
  simp [h2 _ hmem]

theorem head?_trimWs (l : List Char) :
    ∀ c ∈ (trimWs l).head?, isJsWs c = false := by
  intro c hc
  unfold trimWs at hc
  obtain ⟨t, ht⟩ := List.rdropWhile_prefix isJsWs (l.dropWhile isJsWs)
  cases hne : List.rdropWhile isJsWs (l.dropWhile isJsWs) with
  | nil => rw [hne] at hc; simp at hc
  | cons d ds =>
    rw [hne] at hc ht
    simp only [List.head?_cons, Option.mem_def, Option.some.injEq] at hc
    have hhd : (l.dropWhile isJsWs).head? = some d := by
      rw [← ht]
      simp
    have hd := head?_dropWhile_ws l d (by simp [hhd])
    rw [← hc]
    exact hd

theorem getLast?_trimWs (l : List Char) :
    ∀ c ∈ (trimWs l).getLast?, isJsWs c = false := by
  unfold trimWs
  intro c hc
  rcases List.mem_getLast?_eq_getLast hc with ⟨hne, hval⟩
  have := List.rdropWhile_last_not isJsWs (l.dropWhile isJsWs) hne
  rw [← hval] at this
  simpa using this

/-- Invariant satisfied by the output of `normalize`: no control characters,
the only whitespace character is the plain space, no two adjacent whitespace
characters, and no leading or trailing whitespace. -/
def NormalizedList (l : List Char) : Prop :=
  (∀ c ∈ l, isCtrl c = false) ∧
  (∀ c ∈ l, isJsWs c = true → c = ' ') ∧
  List.Chain' (fun a b => ¬(isJsWs a = true ∧ isJsWs b = true)) l ∧
  (∀ c ∈ l.head?, isJsWs c = false) ∧
  (∀ c ∈ l.getLast?, isJsWs c = false)

theorem trimWs_subset (m : List Char) : trimWs m ⊆ m := by
  intro x hx
  unfold trimWs at hx
  have hpre := List.rdropWhile_prefix isJsWs (m.dropWhile isJsWs)
  exact (List.dropWhile_sublist isJsWs).subset (hpre.sublist.subset hx)

theorem chain'_trimWs_collapseWs (s : List Char) :
    List.Chain' (fun a b => ¬(isJsWs a = true ∧ isJsWs b = true))
      (trimWs (collapseWs s)) := by
  unfold trimWs
  have h1 := chain'_collapseWs s
  have hsuf : (collapseWs s).dropWhile isJsWs <:+ collapseWs s :=
    List.dropWhile_suffix isJsWs
  have h2 := h1.suffix hsuf
  have hpre := List.rdropWhile_prefix isJsWs ((collapseWs s).dropWhile isJsWs)
  exact List.Chain'.prefix h2 hpre

theorem normalizedList_normalizeChars (l : List Char) :
    NormalizedList (normalizeChars l) := by
  unfold normalizeChars
  have hctrl : ∀ c ∈ l.filter (fun c => !isCtrl c), isCtrl c = false := by
    intro c hc
    have := List.of_mem_filter hc
    simpa using this
  have hsub : trimWs (collapseWs (l.filter (fun c => !isCtrl c))) ⊆
      collapseWs (l.filter (fun c => !isCtrl c)) := trimWs_subset _
  have hsp : ∀ c ∈ trimWs (collapseWs (l.filter (fun c => !isCtrl c))),
      isJsWs c = true → c = ' ' := by
    intro c hc hwc
    rcases mem_collapseWs _ c (hsub hc) with h | ⟨_, hfalse⟩
    · exact h
    · rw [hwc] at hfalse; cases hfalse
  have hctrl_t : ∀ c ∈ trimWs (collapseWs (l.filter (fun c => !isCtrl c))),
      isCtrl c = false := by
    intro c hc
    rcases mem_collapseWs _ c (hsub hc) with h | ⟨hmem', _⟩
    · rw [h]; decide
    · exact hctrl c hmem'
  have hch_t := chain'_trimWs_collapseWs (l.filter (fun c => !isCtrl c))
  refine ⟨?_, ?_, ?_, ?_, ?_⟩
  · intro c hc
    rcases List.mem_map.1 hc with ⟨d, hd, hdc⟩
    rw [← hdc, isCtrl_toLowerChar]
    exact hctrl_t d hd
  · intro c hc hw
    rcases List.mem_map.1 hc with ⟨d, hd, hdc⟩
    rw [← hdc] at hw ⊢
    rw [isJsWs_toLowerChar] at hw
    have : d = ' ' := hsp d hd hw
    rw [this]
    decide
  · rw [List.chain'_map]
    exact hch_t.imp (fun a b hab => by
      intro hcon
      exact hab ⟨by rw [← isJsWs_toLowerChar]; exact hcon.1,
                 by rw [← isJsWs_toLowerChar]; exact hcon.2⟩)
  · intro c hc
    rw [List.head?_map] at hc
    rcases Option.map_eq_some'.1 hc with ⟨d, hd, hdc⟩
    rw [← hdc, isJsWs_toLowerChar]
    exact head?_trimWs (collapseWs (List.filter (fun c => !isCtrl c) l)) d (by simp [hd])
  · intro c hc
    rw [List.getLast?_map] at hc
    rcases Option.map_eq_some'.1 hc with ⟨d, hd, hdc⟩
    rw [← hdc, isJsWs_toLowerChar]
    exact getLast?_trimWs (collapseWs (List.filter (fun c => !isCtrl c) l)) d (by simp [hd])

theorem normalizeChars_of_normalized {l : List Char} (h : NormalizedList l) :
    normalizeChars l = l.map toLowerChar := by
  obtain ⟨hctrl, hsp, hch, hhd, hlast⟩ := h
  unfold normalizeChars
  have h1 : l.filter (fun c => !isCtrl c) = l := by
    rw [List.filter_eq_self]
    intro a ha
    simp [hctrl a ha]
  rw [h1, collapseWs_eq_self hsp hch, trimWs_eq_self hhd hlast]

theorem normalizeChars_idem (l : List Char) :
    normalizeChars (normalizeChars l) = normalizeChars l := by
  have hn := normalizedList_normalizeChars l
  rw [normalizeChars_of_normalized hn]
  show (normalizeChars l).map toLowerChar = normalizeChars l
  unfold normalizeChars
  rw [List.map_map]
  exact List.map_congr_left (fun a _ => toLowerChar_idem a)

-- ### Words and the chunker (`chunkText` from `src/xai_module/src/util.js`)

/-- Model of `String.prototype.split(' ')`: cut at every space character, keeping
empty pieces (as JavaScript does). -/
def splitOnSpace : List Char → List (List Char)
  | [] => [[]]
  | c :: cs =>
    if c = ' ' then [] :: splitOnSpace cs
    else
      match splitOnSpace cs with
      | [] => [[c]]
      | w :: ws => (c :: w) :: ws

/-- Model of `normalized.split(' ').filter(Boolean)`: the word sequence of a string. -/
def wordsOfChars (l : List Char) : List (List Char) :=
  (splitOnSpace l).filter (fun w => !w.isEmpty)

/-- Model of `Array.prototype.join(' ')`. -/
def joinSpace : List (List Char) → List Char
  | [] => []
  | [w] => w
  | w :: ws => w ++ ' ' :: joinSpace ws

/-- Word sequence of a string, as strings. -/
def wordsOfString (s : String) : List String :=
  (wordsOfChars s.data).map (fun w => ⟨w⟩)

/-- The loop body of `chunkText`: starting at word offset `start`, emit the
window of `sizeWords` words and advance by `step = max(sizeWords - overlapWords, 1)`
until the window reaches the end of the word list.  Mirrors
`for (let start = 0; start < words.length; start += step) { ... }`.
The recursion carries explicit fuel; `chunkWindows` below supplies
`words.length - start + 1`, which strictly dominates the number of remaining
iterations (the loop advances by at least one word per step). -/
def chunkGo (words : List (List Char)) (sizeWords overlapWords : Nat) :
    Nat → Nat → List (List (List Char))
  | _, 0 => []
  | start, fuel + 1 =>
    if start < words.length then
      if ((words.drop start).take sizeWords) = [] then []
      else if words.length ≤ start + sizeWords then [(words.drop start).take sizeWords]
      else ((words.drop start).take sizeWords) ::
        chunkGo words sizeWords overlapWords
          (start + max (sizeWords - overlapWords) 1) fuel
    else []

/-- The chunk loop of `chunkText`, run with sufficient fuel. -/
def chunkWindows (words : List (List Char)) (sizeWords overlapWords start : Nat) :
    List (List (List Char)) :=
  chunkGo words sizeWords overlapWords start (words.length - start + 1)

/-- Model of `chunkText` from `src/xai_module/src/util.js`.  The JavaScript defaults
are `sizeWords = 600`, `overlapWords = 120`; the callers in `search.js` and
`ingest.js` use those defaults.  The source joins each window inside the
loop; here the windows are produced first and joined by the final `map`. -/
def chunkText (text : String) (sizeWords overlapWords : Nat) : List String :=
  let normalized := normalize text
  if normalized = "" then []
  else (chunkWindows (wordsOfChars normalized.data) sizeWords overlapWords 0).map
    (fun ws => (⟨joinSpace ws⟩ : String))

-- ### Lemmas about words

theorem splitOnSpace_ne_nil (l : List Char) : splitOnSpace l ≠ [] := by
  cases l with
  | nil => simp [splitOnSpace]
  | cons c cs =>
    unfold splitOnSpace
    split
    · simp
    · split <;> simp

theorem mem_splitOnSpace_no_space (l : List Char) :
    ∀ w ∈ splitOnSpace l, ∀ c ∈ w, c ≠ ' ' := by
  induction l with
  | nil =>
    intro w hw
    simp [splitOnSpace] at hw
    simp [hw]
  | cons c cs ih =>
    intro w hw
    unfold splitOnSpace at hw
    by_cases hc : c = ' '
    · rw [if_pos hc] at hw
      rcases List.mem_cons.1 hw with h | h
      · simp [h]
      · exact ih w h
    · rw [if_neg hc] at hw
      cases hsp : splitOnSpace cs with
      | nil => exact absurd hsp (splitOnSpace_ne_nil cs)
      | cons v vs =>
        rw [hsp] at hw
        rcases List.mem_cons.1 hw with h | h
        · subst h
          intro d hd
          rcases List.mem_cons.1 hd with h1 | h1
          · rw [h1]; exact hc
          · exact ih v (by rw [hsp]; exact List.mem_cons_self _ _) d h1
        · exact ih w (by rw [hsp]; exact List.mem_cons_of_mem _ h)

theorem splitOnSpace_append_no_space (p rest : List Char) (hp : ∀ c ∈ p, c ≠ ' ') :
    ∃ w ws, splitOnSpace rest = w :: ws ∧ splitOnSpace (p ++ rest) = (p ++ w) :: ws := by
  induction p with
  | nil =>
    cases hr : splitOnSpace rest with
    | nil => exact absurd hr (splitOnSpace_ne_nil rest)
    | cons w ws => exact ⟨w, ws, rfl, by simp [hr]⟩
  | cons c p ih =>
    have hc : c ≠ ' ' := hp c (List.mem_cons_self _ _)
    obtain ⟨w, ws, hr, happ⟩ := ih (fun d hd => hp d (List.mem_cons_of_mem _ hd))
    refine ⟨w, ws, hr, ?_⟩
    show splitOnSpace (c :: (p ++ rest)) = (c :: (p ++ w)) :: ws
    unfold splitOnSpace
    rw [if_neg hc, happ]

theorem splitOnSpace_joinSpace (ps : List (List Char)) (hne : ps ≠ [])
    (hw : ∀ w ∈ ps, ∀ c ∈ w, c ≠ ' ') :
    splitOnSpace (joinSpace ps) = ps := by
  induction ps with
  | nil => exact absurd rfl hne
  | cons p ps ih =>
    cases ps with
    | nil =>
      have hj : joinSpace [p] = p := rfl
      rw [hj]
      obtain ⟨w, ws, hr, happ⟩ :=
        splitOnSpace_append_no_space p [] (hw p (List.mem_cons_self _ _))
      have hnil : splitOnSpace ([] : List Char) = [[]] := rfl
      rw [hnil] at hr
      injection hr with h1 h2
      rw [List.append_nil] at happ
      rw [happ, ← h1, ← h2, List.append_nil]
    | cons q qs =>
      have hj : joinSpace (p :: q :: qs) = p ++ ' ' :: joinSpace (q :: qs) := rfl
      rw [hj]
      obtain ⟨w, ws, hr, happ⟩ :=
        splitOnSpace_append_no_space p (' ' :: joinSpace (q :: qs))
          (hw p (List.mem_cons_self _ _))
      have hr2 : splitOnSpace (' ' :: joinSpace (q :: qs)) =
          [] :: splitOnSpace (joinSpace (q :: qs)) := by
        simp only [splitOnSpace]
        rw [if_pos trivial]
      have hih : splitOnSpace (joinSpace (q :: qs)) = q :: qs :=
        ih (by simp) (fun v hv => hw v (List.mem_cons_of_mem _ hv))
      rw [hr2, hih] at hr
      injection hr with h1 h2
      rw [happ, ← h1, ← h2, List.append_nil]

theorem wordsOfChars_joinSpace (ps : List (List Char))
    (hne : ∀ w ∈ ps, w ≠ []) (hsp : ∀ w ∈ ps, ∀ c ∈ w, c ≠ ' ') :
    wordsOfChars (joinSpace ps) = ps := by
  cases ps with
  | nil => simp [wordsOfChars, joinSpace, splitOnSpace]
  | cons p ps' =>
    unfold wordsOfChars
    rw [splitOnSpace_joinSpace (p :: ps') (by simp) hsp]
    rw [List.filter_eq_self]
    intro w hw
    simp [List.isEmpty_iff, hne w hw]

theorem wordsOfChars_mem_ne_nil (l : List Char) :
    ∀ w ∈ wordsOfChars l, w ≠ [] := by
  intro w hw
  have := List.of_mem_filter hw
  simpa [List.isEmpty_iff] using this

theorem wordsOfChars_mem_no_space (l : List Char) :
    ∀ w ∈ wordsOfChars l, ∀ c ∈ w, c ≠ ' ' := by
  intro w hw
  exact mem_splitOnSpace_no_space l w (List.mem_of_mem_filter hw)

theorem wordsOfChars_ne_nil_of_head (c : Char) (cs : List Char) (hc : c ≠ ' ') :
    wordsOfChars (c :: cs) ≠ [] := by
  unfold wordsOfChars
  unfold splitOnSpace
  rw [if_neg hc]
  cases hsp : splitOnSpace cs with
  | nil => exact absurd hsp (splitOnSpace_ne_nil cs)
  | cons w ws => simp

-- ### Characterization of `chunkWindows`

theorem chunkGo_fuel_irrel (words : List (List Char)) (size ov : Nat) :
    ∀ (f1 f2 start : Nat), words.length - start < f1 → words.length - start < f2 →
      chunkGo words size ov start f1 = chunkGo words size ov start f2 := by
  intro f1
  induction f1 with
  | zero => intro f2 start h1 h2; omega
  | succ f1 ih =>
    intro f2 start h1 h2
    cases f2 with
    | zero => omega
    | succ f2 =>
      simp only [chunkGo]
      by_cases hlt : start < words.length
      · rw [if_pos hlt, if_pos hlt]
        by_cases hnil : ((words.drop start).take size) = []
        · rw [if_pos hnil, if_pos hnil]
        · rw [if_neg hnil, if_neg hnil]
          by_cases hend : words.length ≤ start + size
          · rw [if_pos hend, if_pos hend]
          · rw [if_neg hend, if_neg hend]
            have hstep : 1 ≤ max (size - ov) 1 := Nat.le_max_right _ _
            congr 1
            exact ih f2 (start + max (size - ov) 1) (by omega) (by omega)
      · rw [if_neg hlt, if_neg hlt]

theorem chunkGo_eq_chunkWindows (words : List (List Char)) (size ov start fuel : Nat)
    (hf : words.length - start < fuel) :
    chunkGo words size ov start fuel = chunkWindows words size ov start := by
  unfold chunkWindows
  exact chunkGo_fuel_irrel words size ov fuel _ start hf (by omega)

theorem chunkWindows_neg (words : List (List Char)) (size ov start : Nat)
    (hge : ¬ start < words.length) :
    chunkWindows words size ov start = [] := by
  unfold chunkWindows
  simp only [chunkGo]
  rw [if_neg hge]

theorem chunkWindows_pos (words : List (List Char)) (size ov start : Nat)
    (hlt : start < words.length) (hsz : 1 ≤ size) :
    chunkWindows words size ov start =
      (words.drop start).take size ::
        (if words.length ≤ start + size then []
         else chunkWindows words size ov (start + max (size - ov) 1)) := by
  have hne : (words.drop start).take size ≠ [] := by
    rw [Ne, List.take_eq_nil_iff]
    push_neg
    refine ⟨by omega, ?_⟩
    rw [Ne, List.drop_eq_nil_iff]
    omega
  have hstep : 1 ≤ max (size - ov) 1 := Nat.le_max_right _ _
  rw [show chunkWindows words size ov start =
      chunkGo words size ov start (words.length - start + 1) from rfl]
  simp only [chunkGo]
  rw [if_pos hlt, if_neg hne]
  by_cases hend : words.length ≤ start + size
  · rw [if_pos hend, if_pos hend]
  · rw [if_neg hend, if_neg hend]
    congr 1
    exact chunkGo_eq_chunkWindows words size ov _ _ (by omega)

theorem chunkWindows_length_pos (words : List (List Char)) (size ov start : Nat)
    (hlt : start < words.length) (hsz : 1 ≤ size) :
    chunkWindows words size ov start ≠ [] := by
  rw [chunkWindows_pos words size ov start hlt hsz]
  simp

theorem chunkWindows_lt_of_ne_nil (words : List (List Char)) (size ov start : Nat)
    (h : chunkWindows words size ov start ≠ []) : start < words.length := by
  by_contra hcon
  exact h (chunkWindows_neg words size ov start hcon)

theorem chunkWindows_get (words : List (List Char)) (size ov : Nat) (hsz : 1 ≤ size) :
    ∀ (j start : Nat) (hj : j < (chunkWindows words size ov start).length),
      (chunkWindows words size ov start).get ⟨j, hj⟩ =
        (words.drop (start + j * max (size - ov) 1)).take size := by
  intro j
  induction j with
  | zero =>
    intro start hj
    have hlt : start < words.length :=
      chunkWindows_lt_of_ne_nil words size ov start
        (by intro hcon; rw [hcon] at hj; simp at hj)
    have heq := chunkWindows_pos words size ov start hlt hsz
    have : (chunkWindows words size ov start).get ⟨0, hj⟩ =
        (words.drop start).take size := by
      rw [List.get_of_eq heq]
      rfl
    rw [this]
    simp
  | succ j ih =>
    intro start hj
    have hlt : start < words.length :=
      chunkWindows_lt_of_ne_nil words size ov start
        (by intro hcon; rw [hcon] at hj; simp at hj)
    have heq := chunkWindows_pos words size ov start hlt hsz
    by_cases hend : words.length ≤ start + size
    · exfalso
      have hlen : (chunkWindows words size ov start).length = 1 := by
        rw [heq, if_pos hend]
        rfl
      omega
    · have hj2 : j + 1 < ((words.drop start).take size ::
          chunkWindows words size ov (start + max (size - ov) 1)).length := by
        rw [heq, if_neg hend] at hj
        exact hj
      have hstep : (chunkWindows words size ov start).get ⟨j + 1, hj⟩ =
          (chunkWindows words size ov (start + max (size - ov) 1)).get
            ⟨j, by simpa using hj2⟩ := by
        rw [List.get_of_eq (by rw [heq, if_neg hend])]
        exact List.get_cons_succ
      rw [hstep, ih (start + max (size - ov) 1) (by simpa using hj2)]
      have harith : start + max (size - ov) 1 + j * max (size - ov) 1 =
          start + (j + 1) * max (size - ov) 1 := by ring
      rw [harith]

theorem chunkWindows_not_last_lt (words : List (List Char)) (size ov : Nat)
    (hsz : 1 ≤ size) :
    ∀ (j start : Nat), j + 1 < (chunkWindows words size ov start).length →
      start + j * max (size - ov) 1 + size < words.length := by
  intro j
  induction j with
  | zero =>
    intro start hj
    have hlt : start < words.length :=
      chunkWindows_lt_of_ne_nil words size ov start
        (by intro hcon; rw [hcon] at hj; simp at hj)
    have heq := chunkWindows_pos words size ov start hlt hsz
    by_cases hend : words.length ≤ start + size
    · exfalso
      have hlen : (chunkWindows words size ov start).length = 1 := by
        rw [heq, if_pos hend]
        rfl
      omega
    · simpa using Nat.lt_of_not_le hend
  | succ j ih =>
    intro start hj
    have hlt : start < words.length :=
      chunkWindows_lt_of_ne_nil words size ov start
        (by intro hcon; rw [hcon] at hj; simp at hj)
    have heq := chunkWindows_pos words size ov start hlt hsz
    by_cases hend : words.length ≤ start + size
    · exfalso
      have hlen : (chunkWindows words size ov start).length = 1 := by
        rw [heq, if_pos hend]
        rfl
      omega
    · have hj2 : j + 1 <
          (chunkWindows words size ov (start + max (size - ov) 1)).length := by
        rw [heq, if_neg hend] at hj
        simpa using hj
      have := ih (start + max (size - ov) 1) hj2
      have harith : start + max (size - ov) 1 + j * max (size - ov) 1 =
          start + (j + 1) * max (size - ov) 1 := by ring
      omega

theorem normalize_data (s : String) : (normalize s).data = normalizeChars s.data := rfl

theorem normalize_ne_nil_data (s : String) (h : normalize s ≠ "") :
    normalizeChars s.data ≠ [] := by
  intro hcon
  apply h
  unfold normalize
  rw [hcon]

theorem wordsOfChars_normalize_ne_nil (s : String) (h : normalize s ≠ "") :
    wordsOfChars (normalize s).data ≠ [] := by
  have hd := normalize_ne_nil_data s h
  rw [normalize_data]
  cases hc : normalizeChars s.data with
  | nil => exact absurd hc hd
  | cons c cs =>
    have hcws : isJsWs c = false :=
      (normalizedList_normalizeChars s.data).2.2.2.1 c (by rw [hc]; simp)
    have hcsp : c ≠ ' ' := by
      intro hcon
      rw [hcon] at hcws
      exact absurd hcws (by decide)
    exact wordsOfChars_ne_nil_of_head c cs hcsp

-- ### The store model (`documents` and `chunks` tables)

/-- Row of the `documents` table. -/
structure StoredDoc where
  id : Nat
  filename : String
  docHash : String
deriving Repr, DecidableEq

/-- Row of the `chunks` table. -/
structure StoredChunk where
  documentId : Nat
  chunkIndex : Nat
  chunkText : String
  chunkHash : String
  tokenCount : Nat
deriving Repr, DecidableEq

/-- The Postgres store: the `documents` and `chunks` tables plus the
`documents.id` sequence. -/
structure Store where
  documents : List StoredDoc
  chunks : List StoredChunk
  nextDocId : Nat
deriving Repr, DecidableEq

/-- Stable insertion of `x` into a list sorted by `score` descending: `x`
passes every element with a strictly greater score and lands before the first
element whose score is not greater, so equal-score elements keep their
original relative order.  Together with `sortByScoreDesc` this is the result
of the stable JavaScript `Array.prototype.sort((a, b) => b.score - a.score)`. -/
def insertByScore {α : Type} (score : α → ℚ) (x : α) : List α → List α
  | [] => [x]
  | y :: ys =>
    if score x < score y then y :: insertByScore score x ys else x :: y :: ys

/-- Stable sort by `score` descending (JavaScript
`.sort((a, b) => b.score - a.score)`, which is stable per the ECMAScript
specification). -/
def sortByScoreDesc {α : Type} (score : α → ℚ) : List α → List α
  | [] => []
  | x :: xs => insertByScore score x (sortByScoreDesc score xs)

/-- Keys in order of first occurrence: the order in which `GROUP BY` groups
are formed from the row stream, and the `Map` insertion order in the
JavaScript source. -/
def firstOccurrencesAux {α : Type} [DecidableEq α] : List α → List α → List α
  | _, [] => []
  | seen, d :: ds =>
    if d ∈ seen then firstOccurrencesAux seen ds
    else d :: firstOccurrencesAux (d :: seen) ds

def firstOccurrences {α : Type} [DecidableEq α] (l : List α) : List α :=
  firstOccurrencesAux [] l

/-- Model of `SELECT document_id, COUNT(*) AS matched_chunks FROM chunks WHERE
chunk_hash = ANY($1::text[]) GROUP BY document_id` applied to the matched
rows: one `(documentId, count)` pair per distinct document of the row list. -/
def groupByDoc (rows : List StoredChunk) : List (Nat × Nat) :=
  (firstOccurrences (rows.map (fun r => r.documentId))).map
    (fun d => (d, (rows.filter (fun r => r.documentId = d)).length))

/-- Model of `SELECT document_id, COUNT(*) AS chunk_count FROM chunks WHERE
document_id = ANY($1::int[]) GROUP BY document_id`, looked up for one id. -/
def countChunks (store : Store) (docId : Nat) : Nat :=
  (store.chunks.filter (fun c => c.documentId = docId)).length

/-- One entry of the `exact_chunks` result list of `src/src/search.js`. -/
structure ExactResult where
  docId : Nat
  matchedChunks : Nat
  chunkCount : Nat
  score : ℚ
deriving Repr, DecidableEq

/-- One row returned by the store's trigram query
`SELECT document_id, similarity(chunk_text, $1) AS sim FROM chunks
WHERE chunk_text % $1 ORDER BY sim DESC LIMIT 5`. -/
structure FuzzyRow where
  documentId : Nat
  sim : ℚ
deriving Repr, DecidableEq

/-- One entry of the `fuzzy_trigram` result list of `src/src/search.js`. -/
structure FuzzyResult where
  docId : Nat
  matchedChunks : Nat
  score : ℚ
deriving Repr, DecidableEq

/-- The three result shapes of `searchDocument` in `src/src/search.js`. -/
inductive MatchResult where
  | document (docId : Nat) (score : ℚ)
  | exactChunks (results : List ExactResult)
  | fuzzyTrigram (results : List FuzzyResult)
deriving Repr, DecidableEq

/-- The `fuzzyMap` accumulation of `src/src/search.js`: bump the
`(matchedChunks, similarity)` entry of `docId`, keeping first-insertion
order (JavaScript `Map` semantics). -/
def bumpFuzzy (docId : Nat) (sim : ℚ) : List (Nat × Nat × ℚ) → List (Nat × Nat × ℚ)
  | [] => [(docId, 1, sim)]
  | (d, n, s) :: rest =>
    if d = docId then (d, n + 1, s + sim) :: rest
    else (d, n, s) :: bumpFuzzy docId sim rest

/-- The double loop `for (const chunk of chunks) for (const row of fuzzyRows)`. -/
def fuzzyAccumulate (rowsPerChunk : List (List FuzzyRow)) : List (Nat × Nat × ℚ) :=
  rowsPerChunk.foldl
    (fun acc rows => rows.foldl (fun acc row => bumpFuzzy row.documentId row.sim acc) acc) []

/-- Model of `searchDocument` from `src/src/search.js` (after the external PDF text
extraction).  `hashFn` is the SHA-256 digest (an external primitive, passed
as a parameter); `fuzzyQuery chunk` is the rows of the store's trigram
similarity query for one chunk. -/
def searchDocument (hashFn : String → String) (fuzzyQuery : String → List FuzzyRow)
    (store : Store) (rawText : String) : MatchResult :=
  let normalized := normalize rawText
  if normalized = "" then .fuzzyTrigram []
  else
    let docHash := hashFn normalized
    match store.documents.find? (fun d => d.docHash = docHash) with
    | some d => .document d.id 1
    | none =>
      let chunks := chunkText normalized 600 120
      if chunks = [] then .fuzzyTrigram []
      else
        let chunkHashes := chunks.map hashFn
        let exactRows := store.chunks.filter (fun c => chunkHashes.contains c.chunkHash)
        let grouped := groupByDoc exactRows
        if grouped ≠ [] then
          .exactChunks (sortByScoreDesc ExactResult.score
            (grouped.map (fun p =>
              ⟨p.1, p.2, countChunks store p.1,
                if chunkHashes.length ≠ 0 then (p.2 : ℚ) / (chunkHashes.length : ℚ) else 0⟩)))
        else
          .fuzzyTrigram (sortByScoreDesc FuzzyResult.score
            ((fuzzyAccumulate (chunks.map fuzzyQuery)).map
              (fun e => ⟨e.1, e.2.1, e.2.2 / (e.2.1 : ℚ)⟩)))

-- ### Ingestion (`src/src/ingest.js`)

/-- Result value of `ingestDocument`. -/
inductive IngestResult where
  | duplicate (id : Nat)
  | imported (id : Nat) (chunkCount : Nat)
deriving Repr, DecidableEq

/-- One iteration of the chunk-insert loop of `ingestDocument`: skip the
chunk when a chunk with the same hash already exists anywhere in the store
(global chunk deduplication), otherwise append it to the `chunks` table. -/
def ingestChunkStep (hashFn : String → String) (documentId : Nat)
    (acc : Store × Nat) (p : Nat × String) : Store × Nat :=
  let chunkHash := hashFn p.2
  if (acc.1.chunks.find? (fun c => c.chunkHash = chunkHash)).isSome then acc
  else
    ({ acc.1 with chunks := acc.1.chunks ++
        [⟨documentId, p.1, p.2, chunkHash, (wordsOfString p.2).length⟩] },
     acc.2 + 1)

/-- Model of `ingestDocument` from `src/src/ingest.js` (after the external PDF text
extraction), in a run where every store operation succeeds. -/
def ingestDocument (hashFn : String → String) (store : Store)
    (rawText filename : String) : IngestResult × Store :=
  let normalizedText := normalize rawText
  let docHash := hashFn normalizedText
  match store.documents.find? (fun d => d.docHash = docHash) with
  | some d => (.duplicate d.id, store)
  | none =>
    let documentId := store.nextDocId
    let store1 : Store :=
      { documents := store.documents ++ [⟨documentId, filename, docHash⟩],
        chunks := store.chunks,
        nextDocId := store.nextDocId + 1 }
    let chunks := chunkText normalizedText 600 120
    let folded := chunks.enum.foldl (ingestChunkStep hashFn documentId) (store1, 0)
    (.imported documentId folded.2, folded.1)

/-- The chunk-insert loop of `ingestDocument` with a fallible store:
`insertOk index` says whether the `INSERT` for the chunk at `index`
succeeds.  On a failure the source `throw`s out of the loop, leaving every
earlier write in place — `.error` carries the failing index and the store at
the moment of the failure. -/
def insertChunks (hashFn : String → String) (insertOk : Nat → Bool) (documentId : Nat) :
    List (Nat × String) → Store → Nat → Except (Nat × Store) (Store × Nat)
  | [], st, cnt => .ok (st, cnt)
  | (index, chunkTextValue) :: rest, st, cnt =>
    let chunkHash := hashFn chunkTextValue
    if (st.chunks.find? (fun c => c.chunkHash = chunkHash)).isSome then
      insertChunks hashFn insertOk documentId rest st cnt
    else if insertOk index then
      insertChunks hashFn insertOk documentId rest
        { st with chunks := st.chunks ++
            [⟨documentId, index, chunkTextValue, chunkHash,
              (wordsOfString chunkTextValue).length⟩] }
        (cnt + 1)
    else .error (index, st)

/-- Model of `ingestDocument` in a run where the `INSERT` of some chunks may fail with
a transient store error (`insertOk` says which chunk inserts succeed).  The
source has no transaction: the error from a chunk `INSERT` is re-thrown and
every earlier write (the document row and the previously inserted chunks)
stays in the store, carried here in the `.error` payload. -/
def ingestDocumentF (hashFn : String → String) (insertOk : Nat → Bool) (store : Store)
    (rawText filename : String) : Except (Nat × Store) (IngestResult × Store) :=
  let normalizedText := normalize rawText
  let docHash := hashFn normalizedText
  match store.documents.find? (fun d => d.docHash = docHash) with
  | some d => .ok (.duplicate d.id, store)
  | none =>
    let documentId := store.nextDocId
    let store1 : Store :=
      { documents := store.documents ++ [⟨documentId, filename, docHash⟩],
        chunks := store.chunks,
        nextDocId := store.nextDocId + 1 }
    let chunks := chunkText normalizedText 600 120
    match insertChunks hashFn insertOk documentId chunks.enum store1 0 with
    | .ok (store2, chunkCount) => .ok (.imported documentId chunkCount, store2)
    | .error e => .error e

-- ### XAI analyzer (`src/src/xai/xaiAnalyzer.js`)

/-- The per-group contribution scores computed by
`calculateAcademicContributions` (JavaScript numbers, modelled as `ℚ`). -/
structure AcademicContributions where
  textualSimilarity : ℚ
  lexicalPatterns : ℚ
  syntacticStructure : ℚ
  semanticContent : ℚ
  citationPatterns : ℚ
  writingStyle : ℚ
  documentStructure : ℚ
deriving Repr, DecidableEq

/-- One entry of a match-result list as read by the analyzer (only the
`score` field is accessed). -/
structure ScoredEntry where
  score : ℚ
deriving Repr, DecidableEq

/-- The `matchResults` object as consumed by the analyzer: the `matchType`
tag (a string, compared literally as the source does) and its `results`. -/
structure MatchInput where
  matchType : String
  results : List ScoredEntry
deriving Repr, DecidableEq

/-- The classification record built by `classifyAcademicDocument`.  The
`threshold` sub-object of the source holds the constant strings
`acceptable: '0-30%'`, `reviewNeeded: '30-40%'`, `reject: '>40%'` and the
field `current`, kept here as `thresholdCurrent`. -/
structure AcademicClassification where
  label : String
  riskLevel : String
  confidence : ℚ
  actionRequired : String
  overallScore : ℚ
  qualityScore : ℚ
  thresholdCurrent : ℚ
deriving Repr, DecidableEq

set_option linter.unusedVariables false in
/-- Model of `classifyAcademicDocument` from `src/src/xai/xaiAnalyzer.js`
(lines 234-279).  The `matchResults` parameter is accepted but never read,
exactly as in the source. -/
def classifyAcademicDocument (contributions : AcademicContributions)
    (matchResults : MatchInput) : AcademicClassification :=
  let totalScore := contributions.textualSimilarity + contributions.lexicalPatterns +
    contributions.syntacticStructure + contributions.semanticContent +
    contributions.citationPatterns + contributions.writingStyle +
    contributions.documentStructure
  let maxPossible : ℚ := 400
  let overallScore := (totalScore / maxPossible) * 100
  let similarityPercent := contributions.textualSimilarity
  if similarityPercent > 40 then
    { label := "Plagiarism Detected", riskLevel := "critical", confidence := 95,
      actionRequired := "REJECT", overallScore := contributions.textualSimilarity,
      qualityScore := overallScore, thresholdCurrent := similarityPercent }
  else if similarityPercent ≥ 30 ∧ similarityPercent ≤ 40 then
    { label := "Review Required", riskLevel := "medium", confidence := 85,
      actionRequired := "REVIEW", overallScore := contributions.textualSimilarity,
      qualityScore := overallScore, thresholdCurrent := similarityPercent }
  else if similarityPercent > 0 ∧ similarityPercent < 30 then
    { label := "Acceptable", riskLevel := "low", confidence := 90,
      actionRequired := "APPROVE", overallScore := contributions.textualSimilarity,
      qualityScore := overallScore, thresholdCurrent := similarityPercent }
  else
    { label := "Original", riskLevel := "none", confidence := 95,
      actionRequired := "APPROVE", overallScore := contributions.textualSimilarity,
      qualityScore := overallScore, thresholdCurrent := similarityPercent }

/-- The authenticity sub-scores computed by `calculateAuthenticityScore`:
eight numeric fields; `Object.values(...)` sums them and
`Object.keys(...).length` is 8. -/
structure AuthenticityScores where
  officialLanguage : ℚ
  serialNumber : ℚ
  dateFormat : ℚ
  officialTerms : ℚ
  structuralIntegrity : ℚ
  consistentFormatting : ℚ
  documentType : ℚ
  tamperingDetection : ℚ
deriving Repr, DecidableEq

/-- One forgery-indicator record pushed by `detectForgeryIndicators` or
`classifyVerificationDocument` (explanation and recommendation texts
abbreviated to their opening words; no claim reads them). -/
structure ForgeryDetail where
  issue : String
  severity : String
  explanation : String
  recommendation : String
deriving Repr, DecidableEq

/-- Model of `detectForgeryIndicators` from `src/src/xai/xaiAnalyzer.js`
(lines 404-454).  The source takes `(authenticity, features, forgeryDetails)`
and pushes onto the `forgeryDetails` array; the `features` parameter is never
used in the body, so the model takes only `authenticity` and returns the
pushed records in order. -/
def detectForgeryIndicators (authenticity : AuthenticityScores) : List ForgeryDetail :=
  (if authenticity.serialNumber = 0 then
    [⟨"Missing Serial Number", "critical",
      "Authentic certificates always contain a unique serial number or identification code.",
      "Reject document. Request original certificate with valid serial number."⟩]
   else []) ++
  (if authenticity.officialLanguage = 0 ∧ authenticity.officialTerms = 0 then
    [⟨"No Official Language Detected", "high",
      "The document does not contain standard official terminology.",
      "Verify with issuing authority. Authentic documents use formal, official language."⟩]
   else []) ++
  (if authenticity.structuralIntegrity < 10 then
    [⟨"Poor Document Formatting", "high",
      "The document structure and formatting appear inconsistent with standard certificate layouts.",
      "Compare with known authentic certificates."⟩]
   else []) ++
  (if authenticity.dateFormat = 0 then
    [⟨"Missing or Invalid Date", "medium",
      "No valid date information found.",
      "Request clarification on issuance date."⟩]
   else []) ++
  (if authenticity.tamperingDetection < 50 then
    [⟨"Signs of Tampering Detected", "critical",
      "Analysis indicates possible digital manipulation or alterations to the document.",
      "Immediate manual review required."⟩]
   else [])

/-- The classification record built by `classifyVerificationDocument`. -/
structure VerificationClassification where
  label : String
  riskLevel : String
  confidence : ℚ
  actionRequired : String
  authenticityScore : ℚ
  tamperingRisk : ℚ
  forgeryDetails : List ForgeryDetail
  matchPercentage : ℚ
deriving Repr, DecidableEq

/-- Model of `classifyVerificationDocument` from `src/src/xai/xaiAnalyzer.js`
(lines 456-543).  In the branch for an `exact_chunks` or `fuzzy_trigram`
match result whose `matchScore` is not above 50, the source calls
`this.detectForgeryIndicators(authenticity, features, forgeryDetails)` where
`features` is not bound anywhere in scope, so the JavaScript engine throws a
`ReferenceError` out of the function; the model returns that error.  (The
no-match `else` branch passes `{}` instead and does not throw.) -/
def classifyVerificationDocument (authenticity : AuthenticityScores)
    (matchResults : MatchInput) : Except String VerificationClassification :=
  let totalScore := (authenticity.officialLanguage + authenticity.serialNumber +
    authenticity.dateFormat + authenticity.officialTerms +
    authenticity.structuralIntegrity + authenticity.consistentFormatting +
    authenticity.documentType + authenticity.tamperingDetection) / 8
  let matchPercentage : ℚ :=
    match matchResults.results with
    | r :: _ => r.score * 100
    | [] => 0
  if matchResults.matchType = "document" then
    .ok { label := "100% Match - Duplicate Document", riskLevel := "critical",
          confidence := 100, actionRequired := "REJECT",
          authenticityScore := totalScore,
          tamperingRisk := 100 - authenticity.tamperingDetection,
          forgeryDetails := [⟨"Exact Duplicate", "critical",
            "This document already exists in the database with 100% match.",
            "Verify the original submission and reject this duplicate."⟩],
          matchPercentage := matchPercentage }
  else if matchResults.matchType = "exact_chunks" ∨
      matchResults.matchType = "fuzzy_trigram" then
    let matchScore : ℚ :=
      match matchResults.results with
      | r :: _ => r.score * 100
      | [] => 0
    if matchScore > 50 then
      .ok { label := "Suspected Forgery - Modified Document", riskLevel := "critical",
            confidence := 90, actionRequired := "REJECT",
            authenticityScore := totalScore,
            tamperingRisk := 100 - authenticity.tamperingDetection,
            forgeryDetails := [⟨"Partial Match Detected", "critical",
              "This certificate matches an existing document, but is not identical.",
              "Manual verification required."⟩],
            matchPercentage := matchPercentage }
    else
      .error "ReferenceError: features is not defined"
  else
    let forgeryDetails := detectForgeryIndicators authenticity
    if forgeryDetails.length > 0 then
      .ok { label := "Suspected Forgery", riskLevel := "critical", confidence := 80,
            actionRequired := "REJECT", authenticityScore := totalScore,
            tamperingRisk := 100 - authenticity.tamperingDetection,
            forgeryDetails := forgeryDetails, matchPercentage := matchPercentage }
    else if totalScore > 80 then
      .ok { label := "Appears Authentic", riskLevel := "low", confidence := 75,
            actionRequired := "REVIEW", authenticityScore := totalScore,
            tamperingRisk := 100 - authenticity.tamperingDetection,
            forgeryDetails := forgeryDetails, matchPercentage := matchPercentage }
    else
      .ok { label := "Insufficient Evidence of Authenticity", riskLevel := "high",
            confidence := 65, actionRequired := "REJECT",
            authenticityScore := totalScore,
            tamperingRisk := 100 - authenticity.tamperingDetection,
            forgeryDetails := forgeryDetails, matchPercentage := matchPercentage }

-- ### `searchDocument` from `src/xai_module/src/search.js`

/-- One match-detail record of the xai_module search
(`uploadedChunkIndex` is `-1` when the uploaded chunk cannot be found). -/
structure XMatchDetail where
  uploadedChunkIndex : Int
  uploadedChunkText : String
  matchedChunkIndex : Nat
  matchedChunkText : String
  matchType : String
  similarity : ℚ
deriving Repr, DecidableEq

/-- One per-document result entry of the xai_module search (`chunkCount` is
only present on the exact-chunk tier; `matchesList` models the source field
named `matches`, which is a reserved word here). -/
structure XDocResult where
  docId : Nat
  filename : String
  matchedChunks : Nat
  chunkCount : Option Nat
  score : ℚ
  matchesList : List XMatchDetail
  totalMatches : Nat
deriving Repr, DecidableEq

/-- The verdict object attached by `generateXAIAnalysis` (built by the
`XAIAnalyzer`; the analyzer computation is passed to `searchDocumentX` as the
parameter `analyze`, and the claims below hold for every `analyze`). -/
structure XaiAnalysis where
  documentType : String
  label : String
  riskLevel : String
deriving Repr, DecidableEq

/-- The return object of the xai_module `searchDocument`; fields that a
branch leaves absent or `null` are `none` here. -/
structure XSearchOutput where
  matchType : String
  results : List XDocResult
  docId : Option Nat
  filename : Option String
  score : Option ℚ
  explanation : Option String
  xaiAnalysis : Option XaiAnalysis
  detectedDocumentType : Option String
deriving Repr, DecidableEq

/-- One row of the xai_module trigram query
`SELECT c.document_id, c.chunk_index, c.chunk_text, d.filename,
similarity(c.chunk_text, $1) AS sim ... LIMIT 3`. -/
structure XFuzzyRow where
  documentId : Nat
  chunkIndex : Nat
  chunkText : String
  filename : String
  sim : ℚ
deriving Repr, DecidableEq

/-- The exact-chunk tier of the xai_module search: group the matched rows by
document (`Map` insertion order), build the per-match details, attach each
document's total chunk count, score by
`matchedChunks / totalSubmittedChunks`. -/
def xExactResults (hashFn : String → String) (store : Store)
    (chunks : List String) : List XDocResult :=
  let chunkHashes := chunks.enum.map (fun p => (hashFn p.2, p.2, p.1))
  let exactRows := store.chunks.filter (fun c =>
    (chunkHashes.map (fun q => q.1)).contains c.chunkHash)
  (firstOccurrences (exactRows.map (fun r => r.documentId))).map (fun docId =>
    let docRows := exactRows.filter (fun r => r.documentId = docId)
    let allMatches := docRows.map (fun row =>
      match chunkHashes.find? (fun q => q.1 = row.chunkHash) with
      | some q => ⟨(q.2.2 : Int), q.2.1, row.chunkIndex, row.chunkText, "exact", 1⟩
      | none => ⟨-1, "", row.chunkIndex, row.chunkText, "exact", 1⟩)
    { docId := docId,
      filename :=
        ((store.documents.find? (fun d => d.id = docId)).map (fun d => d.filename)).getD "",
      matchedChunks := allMatches.length,
      chunkCount := some (countChunks store docId),
      score := if chunks.length ≠ 0 then (allMatches.length : ℚ) / (chunks.length : ℚ) else 0,
      matchesList := allMatches.take 10,
      totalMatches := allMatches.length })

/-- The `fuzzyMap` of the xai_module search: per document, the match details
in encounter order and the running similarity sum (`Map` insertion order). -/
def bumpXFuzzy (docId : Nat) (filename : String) (detail : XMatchDetail) (sim : ℚ) :
    List (Nat × String × List XMatchDetail × ℚ) →
      List (Nat × String × List XMatchDetail × ℚ)
  | [] => [(docId, filename, [detail], sim)]
  | (d, f, ms, s) :: rest =>
    if d = docId then (d, f, ms ++ [detail], s + sim) :: rest
    else (d, f, ms, s) :: bumpXFuzzy docId filename detail sim rest

/-- The double loop `for (let i = 0; i < chunks.length; i++) for (const row
of fuzzyRows.rows)` of the xai_module search. -/
def xFuzzyAccumulate (fuzzyQueryX : String → List XFuzzyRow) (chunks : List String) :
    List (Nat × String × List XMatchDetail × ℚ) :=
  chunks.enum.foldl (fun acc p =>
    (fuzzyQueryX p.2).foldl (fun acc row =>
      bumpXFuzzy row.documentId row.filename
        ⟨(p.1 : Int), (p.2.take 200) ++ "...", row.chunkIndex,
          (row.chunkText.take 200) ++ "...", "fuzzy", row.sim⟩
        row.sim acc) acc) []

/-- Model of `searchDocument` from `src/xai_module/src/search.js` (after the external
PDF text extraction).  `detectType` models `detectDocumentType` (a pure
keyword/regex heuristic of the same file) and `analyze` models
`generateXAIAnalysis` (the `XAIAnalyzer` dispatch, which catches its own
exceptions and always produces a value); the claims proved about this
function hold for every `detectType` and every `analyze`. -/
def searchDocumentX (hashFn : String → String) (fuzzyQueryX : String → List XFuzzyRow)
    (detectType : String → String)
    (analyze : String → String → List XDocResult → String → XaiAnalysis)
    (store : Store) (rawText : String) (documentType : String) : XSearchOutput :=
  let normalized := normalize rawText
  if normalized = "" then
    { matchType := "fuzzy_trigram", results := [], docId := none, filename := none,
      score := none, explanation := none, xaiAnalysis := none,
      detectedDocumentType := none }
  else
    let docType := if documentType = "auto" then detectType normalized else documentType
    let docHash := hashFn normalized
    match store.documents.find? (fun d => d.docHash = docHash) with
    | some d =>
      { matchType := "document", results := [], docId := some d.id,
        filename := some d.filename, score := some 1,
        explanation := some "This document is an exact duplicate (100% match). The entire content matches byte-for-byte.",
        xaiAnalysis := none, detectedDocumentType := none }
    | none =>
      let chunks := chunkText normalized 600 120
      if chunks = [] then
        { matchType := "fuzzy_trigram", results := [], docId := none, filename := none,
          score := none, explanation := none, xaiAnalysis := none,
          detectedDocumentType := none }
      else
        let exact := xExactResults hashFn store chunks
        if exact ≠ [] then
          { matchType := "exact_chunks",
            results := sortByScoreDesc XDocResult.score exact,
            docId := none, filename := none, score := none, explanation := none,
            xaiAnalysis := none, detectedDocumentType := none }
        else
          let fuzzyResults := sortByScoreDesc XDocResult.score
            ((xFuzzyAccumulate fuzzyQueryX chunks).map (fun e =>
              { docId := e.1, filename := e.2.1,
                matchedChunks := e.2.2.1.length, chunkCount := none,
                score := if e.2.2.1.length ≠ 0 then
                    e.2.2.2 / (e.2.2.1.length : ℚ) else 0,
                matchesList := e.2.2.1.take 10,
                totalMatches := e.2.2.1.length }))
          { matchType := "fuzzy_trigram", results := fuzzyResults,
            docId := none, filename := none, score := none, explanation := none,
            xaiAnalysis := some (analyze normalized "fuzzy_trigram" fuzzyResults docType),
            detectedDocumentType := some docType }

-- ### Lemmas about the stable descending sort

theorem mem_insertByScore {α : Type} (score : α → ℚ) (x : α) :
    ∀ (l : List α) (a : α), a ∈ insertByScore score x l ↔ a = x ∨ a ∈ l := by
  intro l
  induction l with
  | nil => intro a; simp [insertByScore]
  | cons y ys ih =>
    intro a
    unfold insertByScore
    split
    · rw [List.mem_cons, ih a, List.mem_cons]
      tauto
    · rw [List.mem_cons, List.mem_cons]

theorem mem_sortByScoreDesc {α : Type} (score : α → ℚ) :
    ∀ (l : List α) (a : α), a ∈ sortByScoreDesc score l ↔ a ∈ l := by
  intro l
  induction l with
  | nil => intro a; simp [sortByScoreDesc]
  | cons x xs ih =>
    intro a
    unfold sortByScoreDesc
    rw [mem_insertByScore, ih a, List.mem_cons]

theorem sorted_insertByScore {α : Type} (score : α → ℚ) (x : α) :
    ∀ (l : List α), List.Sorted (fun a b => score b ≤ score a) l →
      List.Sorted (fun a b => score b ≤ score a) (insertByScore score x l) := by
  intro l
  induction l with
  | nil => intro _; simp [insertByScore]
  | cons y ys ih =>
    intro h
    rw [List.sorted_cons] at h
    unfold insertByScore
    split
    · next hlt =>
      rw [List.sorted_cons]
      refine ⟨?_, ih h.2⟩
      intro b hb
      rcases (mem_insertByScore score x ys b).1 hb with hbx | hby
      · rw [hbx]; exact le_of_lt hlt
      · exact h.1 b hby
    · next hge =>
      rw [List.sorted_cons]
      refine ⟨?_, by rw [List.sorted_cons]; exact h⟩
      intro b hb
      rcases List.mem_cons.1 hb with hby | hbys
      · rw [hby]; exact le_of_not_lt hge
      · exact le_trans (h.1 b hbys) (le_of_not_lt hge)

theorem sorted_sortByScoreDesc {α : Type} (score : α → ℚ) :
    ∀ (l : List α), List.Sorted (fun a b => score b ≤ score a) (sortByScoreDesc score l) := by
  intro l
  induction l with
  | nil => simp [sortByScoreDesc]
  | cons x xs ih => exact sorted_insertByScore score x _ ih

theorem filter_insertByScore {α : Type} (score : α → ℚ) (x : α) (s : ℚ) :
    ∀ (l : List α),
      (insertByScore score x l).filter (fun a => score a = s) =
        if score x = s then x :: l.filter (fun a => score a = s)
        else l.filter (fun a => score a = s) := by
  intro l
  induction l with
  | nil =>
    simp only [insertByScore]
    by_cases hx : score x = s
    · rw [if_pos hx, List.filter_cons_of_pos (by simp [hx])]
    · rw [if_neg hx, List.filter_cons_of_neg (by simp [hx])]
  | cons y ys ih =>
    unfold insertByScore
    split
    · next hlt =>
      have hys : score y ≠ s ∨ score x ≠ s := by
        by_cases hx : score x = s
        · left
          intro hcon
          rw [hx] at hlt
          rw [hcon] at hlt
          exact lt_irrefl s hlt
        · right; exact hx
      by_cases hyv : score y = s
      · have hxv : score x ≠ s := by tauto
        rw [List.filter_cons_of_pos (by simp [hyv]), ih,
          if_neg hxv, List.filter_cons_of_pos (by simp [hyv]), if_neg hxv]
      · rw [List.filter_cons_of_neg (by simp [hyv]), ih,
          List.filter_cons_of_neg (by simp [hyv])]
    · next hge =>
      by_cases hxv : score x = s
      · rw [List.filter_cons_of_pos (by simp [hxv]), if_pos hxv]
      · rw [List.filter_cons_of_neg (by simp [hxv]), if_neg hxv]

theorem filter_sortByScoreDesc {α : Type} (score : α → ℚ) (s : ℚ) :
    ∀ (l : List α),
      (sortByScoreDesc score l).filter (fun a => score a = s) =
        l.filter (fun a => score a = s) := by
  intro l
  induction l with
  | nil => rfl
  | cons x xs ih =>
    unfold sortByScoreDesc
    rw [filter_insertByScore]
    by_cases hxv : score x = s
    · rw [if_pos hxv, ih, List.filter_cons_of_pos (by simp [hxv])]
    · rw [if_neg hxv, ih, List.filter_cons_of_neg (by simp [hxv])]

-- ### Lemmas about grouping

theorem mem_firstOccurrencesAux {α : Type} [DecidableEq α] :
    ∀ (l seen : List α) (x : α), x ∈ firstOccurrencesAux seen l → x ∈ l := by
  intro l
  induction l with
  | nil => intro seen x hx; simp [firstOccurrencesAux] at hx
  | cons d ds ih =>
    intro seen x hx
    unfold firstOccurrencesAux at hx
    split at hx
    · exact List.mem_cons_of_mem _ (ih seen x hx)
    · rcases List.mem_cons.1 hx with h | h
      · rw [h]; exact List.mem_cons_self _ _
      · exact List.mem_cons_of_mem _ (ih (d :: seen) x h)

theorem firstOccurrences_ne_nil {α : Type} [DecidableEq α] (d : α) (ds : List α) :
    firstOccurrences (d :: ds) ≠ [] := by
  unfold firstOccurrences firstOccurrencesAux
  rw [if_neg (by simp)]
  simp

theorem groupByDoc_mem {rows : List StoredChunk} {p : Nat × Nat}
    (h : p ∈ groupByDoc rows) :
    p.2 = (rows.filter (fun r => r.documentId = p.1)).length ∧
    (∃ r ∈ rows, r.documentId = p.1) := by
  unfold groupByDoc at h
  rcases List.mem_map.1 h with ⟨d, hd, hdp⟩
  have hmem : d ∈ rows.map (fun r => r.documentId) :=
    mem_firstOccurrencesAux _ _ _ hd
  rcases List.mem_map.1 hmem with ⟨r, hr, hrd⟩
  constructor
  · rw [← hdp]
  · refine ⟨r, hr, ?_⟩
    rw [hrd, ← hdp]

theorem groupByDoc_ne_nil {rows : List StoredChunk} (h : rows ≠ []) :
    groupByDoc rows ≠ [] := by
  unfold groupByDoc
  cases rows with
  | nil => exact absurd rfl h
  | cons r rs =>
    intro hcon
    have := firstOccurrences_ne_nil r.documentId (rs.map (fun r => r.documentId))
    rw [List.map_cons] at hcon
    exact this (List.map_eq_nil_iff.1 hcon)

-- Rational arithmetic is `@[irreducible]` upstream; the concrete evaluations
-- below need it to reduce.
attribute [local semireducible] Rat.add Rat.mul Rat.inv Rat.sub

-- ### Claim theorems

/-- C1: For every academic classification input, the verdict label, risk
level and action are assigned from the textual-similarity percentage by the
fixed thresholds of `classifyAcademicDocument`: similarity strictly greater
than 40 yields label "Plagiarism Detected" with risk "critical" and action
REJECT; similarity in the inclusive range 30 to 40 yields "Review Required"
with risk "medium" and action REVIEW; similarity strictly between 0 and 30
yields "Acceptable" with risk "low" and action APPROVE; similarity exactly 0
yields "Original" with risk "none" and action APPROVE.  (The witness checks
the boundary inputs 29.999, 30.0, 40.0 and 40.001.) -/
theorem classifyAcademicDocument_thresholds (c : AcademicContributions) (m : MatchInput) :
    (40 < c.textualSimilarity →
      (classifyAcademicDocument c m).label = "Plagiarism Detected" ∧
      (classifyAcademicDocument c m).riskLevel = "critical" ∧
      (classifyAcademicDocument c m).actionRequired = "REJECT") ∧
    (30 ≤ c.textualSimilarity → c.textualSimilarity ≤ 40 →
      (classifyAcademicDocument c m).label = "Review Required" ∧
      (classifyAcademicDocument c m).riskLevel = "medium" ∧
      (classifyAcademicDocument c m).actionRequired = "REVIEW") ∧
    (0 < c.textualSimilarity → c.textualSimilarity < 30 →
      (classifyAcademicDocument c m).label = "Acceptable" ∧
      (classifyAcademicDocument c m).riskLevel = "low" ∧
      (classifyAcademicDocument c m).actionRequired = "APPROVE") ∧
    (c.textualSimilarity = 0 →
      (classifyAcademicDocument c m).label = "Original" ∧
      (classifyAcademicDocument c m).riskLevel = "none" ∧
      (classifyAcademicDocument c m).actionRequired = "APPROVE") := by
  refine ⟨?_, ?_, ?_, ?_⟩
  · intro h
    simp only [classifyAcademicDocument]
    rw [if_pos h]
    exact ⟨rfl, rfl, rfl⟩
  · intro h1 h2
    simp only [classifyAcademicDocument]
    rw [if_neg (not_lt.2 h2), if_pos ⟨h1, h2⟩]
    exact ⟨rfl, rfl, rfl⟩
  · intro h1 h2
    simp only [classifyAcademicDocument]
    rw [if_neg (by linarith), if_neg (fun hc => absurd hc.1 (not_le.2 h2)),
      if_pos ⟨h1, h2⟩]
    exact ⟨rfl, rfl, rfl⟩
  · intro h
    simp only [classifyAcademicDocument]
    rw [if_neg (by rw [h]; norm_num), if_neg (by rw [h]; norm_num),
      if_neg (by rw [h]; norm_num)]
    exact ⟨rfl, rfl, rfl⟩

/-- Witness for C1 at the boundary inputs 40.001, 30.0, 40.0, 29.999. -/
theorem classifyAcademicDocument_thresholds_witness :
    ((classifyAcademicDocument ⟨(40001 : ℚ)/1000, 0, 0, 0, 0, 0, 0⟩
        ⟨"fuzzy_trigram", []⟩).label = "Plagiarism Detected" ∧
      (classifyAcademicDocument ⟨(40001 : ℚ)/1000, 0, 0, 0, 0, 0, 0⟩
        ⟨"fuzzy_trigram", []⟩).riskLevel = "critical" ∧
      (classifyAcademicDocument ⟨(40001 : ℚ)/1000, 0, 0, 0, 0, 0, 0⟩
        ⟨"fuzzy_trigram", []⟩).actionRequired = "REJECT") ∧
    ((classifyAcademicDocument ⟨(30 : ℚ), 0, 0, 0, 0, 0, 0⟩
        ⟨"fuzzy_trigram", []⟩).label = "Review Required" ∧
      (classifyAcademicDocument ⟨(30 : ℚ), 0, 0, 0, 0, 0, 0⟩
        ⟨"fuzzy_trigram", []⟩).riskLevel = "medium" ∧
      (classifyAcademicDocument ⟨(30 : ℚ), 0, 0, 0, 0, 0, 0⟩
        ⟨"fuzzy_trigram", []⟩).actionRequired = "REVIEW") ∧
    ((classifyAcademicDocument ⟨(40 : ℚ), 0, 0, 0, 0, 0, 0⟩
        ⟨"fuzzy_trigram", []⟩).label = "Review Required") ∧
    ((classifyAcademicDocument ⟨(29999 : ℚ)/1000, 0, 0, 0, 0, 0, 0⟩
        ⟨"fuzzy_trigram", []⟩).label = "Acceptable" ∧
      (classifyAcademicDocument ⟨(29999 : ℚ)/1000, 0, 0, 0, 0, 0, 0⟩
        ⟨"fuzzy_trigram", []⟩).actionRequired = "APPROVE") :=
  ⟨(classifyAcademicDocument_thresholds _ _).1 (by norm_num),
   (classifyAcademicDocument_thresholds _ _).2.1 (by norm_num) (by norm_num),
   ((classifyAcademicDocument_thresholds _ _).2.1 (by norm_num) (by norm_num)).1,
   ⟨((classifyAcademicDocument_thresholds _ _).2.2.1 (by norm_num) (by norm_num)).1,
    ((classifyAcademicDocument_thresholds _ _).2.2.1 (by norm_num) (by norm_num)).2.2⟩⟩

/-- C10 (implicit): `classifyVerificationDocument` is not total — for every
verification-document classification whose match result is of type
`exact_chunks` or `fuzzy_trigram` with an empty result list or a top
candidate score of at most 0.5, the source reaches
`this.detectForgeryIndicators(authenticity, features, forgeryDetails)`
where `features` is an undefined variable, and throws a `ReferenceError`
instead of returning a verdict; in particular every verification document
with no store match at the fuzzy tier hits this error branch. -/
theorem classifyVerificationDocument_throws (a : AuthenticityScores) (m : MatchInput)
    (hmt : m.matchType = "exact_chunks" ∨ m.matchType = "fuzzy_trigram")
    (hsc : m.results = [] ∨ ∃ r rest, m.results = r :: rest ∧ r.score ≤ 1/2) :
    classifyVerificationDocument a m =
      .error "ReferenceError: features is not defined" := by
  have hnd : ¬ m.matchType = "document" := by
    rcases hmt with h | h <;> rw [h] <;> decide
  simp only [classifyVerificationDocument]
  rw [if_neg hnd, if_pos hmt]
  rcases hsc with hsc | ⟨r, rest, hres, hrs⟩
  · rw [hsc]
    norm_num
  · rw [hres]
    rw [if_neg (by push_neg; linarith)]

/-- Witness for C10: a fuzzy-trigram match input with no results. -/
theorem classifyVerificationDocument_throws_witness :
    classifyVerificationDocument ⟨0, 0, 0, 0, 0, 0, 0, 0⟩ ⟨"fuzzy_trigram", []⟩ =
      .error "ReferenceError: features is not defined" :=
  classifyVerificationDocument_throws _ _ (Or.inr rfl) (Or.inl rfl)

/-- C9: `normalize` is idempotent and total: it is a total Lean function
(the JavaScript source is a chain of `String.replace`, `trim` and
`toLowerCase` calls, none of which can throw), and for every input `x`,
`normalize (normalize x) = normalize x`. -/
theorem normalize_idem (x : String) : normalize (normalize x) = normalize x :=
  congrArg String.mk (normalizeChars_idem x.data)

/-- C4: ingestion is not atomic per document.  Failing input: ingesting the
text "a" into the empty store, where the single chunk `INSERT` fails with a
transient store error.  The source has no transaction around
`ingestDocument`: the document row is inserted first, the chunk loop then
throws, and the store is left with the orphan document row
`⟨1, "f", hash("a")⟩` (and on longer documents the already-inserted chunks),
not as if the ingestion never happened. -/
theorem ingestDocument_not_atomic :
    ingestDocumentF id (fun _ => false) ⟨[], [], 1⟩ "a" "f" =
      .error (0, ⟨[⟨1, "f", "a"⟩], [], 2⟩) ∧
    (⟨[⟨1, "f", "a"⟩], [], 2⟩ : Store) ≠ ⟨[], [], 1⟩ := by
  constructor
  · rfl
  · decide

/-- C5 counterexample: two candidate documents with equal fuzzy score 0.5
but different matched-chunk counts (1 versus 2).  The ranked result keeps
document 1 (one matched chunk) before document 2 (two matched chunks): the
sort uses only `b.score - a.score` and is stable, so there is no
tie-break on the absolute matched-chunk count, contrary to the claim that
the candidate with more matched chunks ranks first. -/
theorem searchDocument_no_tiebreak_counterexample :
    searchDocument id
      (fun _ => [⟨1, 1/2⟩, ⟨2, 2/5⟩, ⟨2, 3/5⟩])
      ⟨[], [], 1⟩ "a" =
      .fuzzyTrigram [⟨1, 1, 1/2⟩, ⟨2, 2, 1/2⟩] := by decide

/-- C5 amended: when two candidate documents end up with equal similarity
score, the ranked result keeps them in their aggregation (first-encounter)
order: the sort used by `searchDocument` on both tiers, `sortByScoreDesc`,
is the stable JavaScript sort by score descending — it sorts descending and
preserves the relative order of equal-score entries; there is no tie-break
on matched-chunk count. -/
theorem sortByScoreDesc_stable {α : Type} (score : α → ℚ) (l : List α) :
    List.Sorted (fun a b => score b ≤ score a) (sortByScoreDesc score l) ∧
    (∀ s : ℚ, (sortByScoreDesc score l).filter (fun a => score a = s) =
      l.filter (fun a => score a = s)) :=
  ⟨sorted_sortByScoreDesc score l, fun s => filter_sortByScoreDesc score s l⟩

/-- C6 counterexample: evaluating the empty input with the xai_module
`searchDocument` returns `matchType = "fuzzy_trigram"` with an empty result
list but `xaiAnalysis: null` — no verdict at all — even when the analyzer
(passed here as the `analyze` parameter) would have produced the
"original" / "none" verdict; the claim's "together with a verdict labeled
original with risk none" is false. -/
theorem searchDocumentX_empty_counterexample :
    (searchDocumentX id (fun _ => []) (fun _ => "verification")
        (fun _ _ _ _ => ⟨"verification", "original", "none"⟩)
        ⟨[], [], 1⟩ "" "auto").xaiAnalysis = none ∧
    (searchDocumentX id (fun _ => []) (fun _ => "verification")
        (fun _ _ _ _ => ⟨"verification", "original", "none"⟩)
        ⟨[], [], 1⟩ "" "auto").matchType = "fuzzy_trigram" ∧
    (searchDocumentX id (fun _ => []) (fun _ => "verification")
        (fun _ _ _ _ => ⟨"verification", "original", "none"⟩)
        ⟨[], [], 1⟩ "" "auto").results = [] := by
  refine ⟨?_, ?_, ?_⟩ <;> decide

/-- C6 amended: for every input that is empty (or whitespace-only) after
normalization, evaluation does not fail and returns a `fuzzy_trigram` match
result with an empty result list and a null XAI analysis — no verdict is
attached (the early return of `src/xai_module/src/search.js` lines 8–11
carries `xaiAnalysis: null`). -/
theorem searchDocumentX_empty (hashFn : String → String)
    (fq : String → List XFuzzyRow) (dt : String → String)
    (an : String → String → List XDocResult → String → XaiAnalysis)
    (store : Store) (text documentType : String)
    (h : normalize text = "") :
    searchDocumentX hashFn fq dt an store text documentType =
      ⟨"fuzzy_trigram", [], none, none, none, none, none, none⟩ := by
  simp only [searchDocumentX]
  rw [if_pos h]

/-- Witness for C6 amended: the empty input. -/
theorem searchDocumentX_empty_witness :
    searchDocumentX id (fun _ => []) (fun _ => "verification")
        (fun _ _ _ _ => ⟨"verification", "original", "none"⟩)
        ⟨[], [], 1⟩ " \t " "auto" =
      ⟨"fuzzy_trigram", [], none, none, none, none, none, none⟩ :=
  searchDocumentX_empty id _ _ _ _ " \t " "auto" (by decide)

-- ### C8: whitespace collapsing interacts with control stripping

theorem collapseWs_not_ws_id {l : List Char} (h : ∀ c ∈ l, isJsWs c = false) :
    collapseWs l = l := by
  induction l with
  | nil => simp [collapseWs]
  | cons c cs ih =>
    cases cs with
    | nil => rw [collapseWs_singleton, if_neg (by simp [h c (by simp)])]
    | cons d ds =>
      rw [collapseWs_cons2_not (by simp [h c (by simp)]),
        if_neg (by simp [h c (by simp)]),
        ih (fun x hx => h x (List.mem_cons_of_mem _ hx))]

theorem collapseWs_append_left {x rest : List Char}
    (hx : ∀ c ∈ x, isJsWs c = false) :
    collapseWs (x ++ rest) = x ++ collapseWs rest := by
  induction x with
  | nil => simp
  | cons a x' ih =>
    have ha : isJsWs a = false := hx a (by simp)
    cases hxr : x' ++ rest with
    | nil =>
      rcases List.append_eq_nil.1 hxr with ⟨hx', hr⟩
      subst hx'
      subst hr
      rw [List.cons_append, hxr, collapseWs_singleton, if_neg (by simp [ha])]
      simp [collapseWs]
    | cons b t =>
      rw [List.cons_append, hxr, collapseWs_cons2_not (by simp [ha]),
        if_neg (by simp [ha]), ← hxr,
        ih (fun c hc => hx c (List.mem_cons_of_mem _ hc))]
      rfl

theorem collapseWs_ws_run {w y : List Char} (hw : w ≠ [])
    (hwws : ∀ c ∈ w, isJsWs c = true)
    (hy : y ≠ []) (hyhd : ∀ c ∈ y.head?, isJsWs c = false) :
    collapseWs (w ++ y) = ' ' :: collapseWs y := by
  induction w with
  | nil => exact absurd rfl hw
  | cons u w' ih =>
    cases w' with
    | nil =>
      cases y with
      | nil => exact absurd rfl hy
      | cons v y' =>
        have hu : isJsWs u = true := hwws u (by simp)
        have hv : isJsWs v = false := hyhd v (by simp)
        rw [List.cons_append, List.nil_append,
          collapseWs_cons2_not (by simp [hv]), if_pos hu]
    | cons u2 w'' =>
      have hu : isJsWs u = true := hwws u (by simp)
      have hu2 : isJsWs u2 = true := hwws u2 (by simp)
      rw [List.cons_append, show (u2 :: w'') ++ y = u2 :: (w'' ++ y) from rfl,
        collapseWs_cons2_ws hu hu2]
      exact ih (by simp) (fun c hc => hwws c (List.mem_cons_of_mem _ hc))

/-- C8 counterexample: in the input "a\tb" the non-whitespace characters a
and b are separated only by a tab — a whitespace character — so the claim
says the output separates them by exactly one space ("a b").  But the tab
(0x09) also falls in the control range 0x00–0x1F of `CONTROL_CHAR_REGEX`,
which is applied BEFORE whitespace collapsing, so the tab is deleted
outright and `normalize` returns "ab". -/
theorem normalize_collapse_counterexample :
    normalize "a\tb" = "ab" ∧ normalize "a\tb" ≠ "a b" := by
  constructor
  · decide
  · decide

/-- C8 amended: whitespace collapsing applies to the control-stripped text.
If the segments `x` and `y` contain no whitespace and no control characters
and are non-empty, and `w` is a whitespace run containing at least one
non-control whitespace character (e.g. a space), then
`normalize (x ++ w ++ y)` is lower-cased `x` and `y` separated by exactly
one space.  (When the run consists solely of control whitespace — tabs,
newlines, carriage returns — it is deleted by the control pass instead, as
the counterexample shows.) -/
theorem normalize_collapse_amended (x w y : List Char) (hx : x ≠ []) (hy : y ≠ [])
    (hxc : ∀ c ∈ x, isJsWs c = false ∧ isCtrl c = false)
    (hyc : ∀ c ∈ y, isJsWs c = false ∧ isCtrl c = false)
    (hwws : ∀ c ∈ w, isJsWs c = true)
    (hwnc : ∃ c ∈ w, isCtrl c = false) :
    normalizeChars (x ++ w ++ y) =
      x.map toLowerChar ++ ' ' :: y.map toLowerChar := by
  unfold normalizeChars
  have hfx : x.filter (fun c => !isCtrl c) = x :=
    List.filter_eq_self.2 (fun a ha => by simp [(hxc a ha).2])
  have hfy : y.filter (fun c => !isCtrl c) = y :=
    List.filter_eq_self.2 (fun a ha => by simp [(hyc a ha).2])
  have hfilter : (x ++ w ++ y).filter (fun c => !isCtrl c) =
      x ++ (w.filter (fun c => !isCtrl c) ++ y) := by
    rw [List.filter_append, List.filter_append, hfx, hfy, List.append_assoc]
  rw [hfilter]
  have hw'ws : ∀ c ∈ w.filter (fun c => !isCtrl c), isJsWs c = true :=
    fun c hc => hwws c (List.mem_of_mem_filter hc)
  have hw'ne : w.filter (fun c => !isCtrl c) ≠ [] := by
    obtain ⟨c, hcw, hcc⟩ := hwnc
    intro hcon
    have hmem : c ∈ w.filter (fun c => !isCtrl c) :=
      List.mem_filter.2 ⟨hcw, by simp [hcc]⟩
    rw [hcon] at hmem
    simp at hmem
  have hyhd : ∀ c ∈ y.head?, isJsWs c = false := by
    intro c hc
    cases y with
    | nil => simp at hc
    | cons v y' =>
      simp only [List.head?_cons, Option.mem_def, Option.some.injEq] at hc
      rw [← hc]
      exact (hyc v (by simp)).1
  rw [collapseWs_append_left (fun c hc => (hxc c hc).1),
    collapseWs_ws_run hw'ne hw'ws hy hyhd,
    collapseWs_not_ws_id (fun c hc => (hyc c hc).1)]
  have htrim : trimWs (x ++ ' ' :: y) = x ++ ' ' :: y := by
    apply trimWs_eq_self
    · intro c hc
      rw [List.head?_append_of_ne_nil x hx] at hc
      cases x with
      | nil => exact absurd rfl hx
      | cons a x' =>
        simp only [List.head?_cons, Option.mem_def, Option.some.injEq] at hc
        rw [← hc]
        exact (hxc a (by simp)).1
    · intro c hc
      rw [List.getLast?_append] at hc
      have h1 : (' ' :: y).getLast? = some (y.getLast hy) := by
        rw [List.getLast?_eq_getLast (' ' :: y) (by simp), List.getLast_cons hy]
      rw [h1, Option.or_some] at hc
      simp only [Option.mem_def, Option.some.injEq] at hc
      rw [← hc]
      exact (hyc _ (List.getLast_mem hy)).1
  rw [htrim, List.map_append, List.map_cons,
    show toLowerChar ' ' = ' ' from by decide]

/-- Witness for C8 amended: "a \tb" — segments "a" and "b" separated by the
run space-tab, which contains the non-control space — normalizes to "a b". -/
theorem normalize_collapse_amended_witness :
    normalizeChars (['a'] ++ [' ', '\t'] ++ ['b']) =
      (['a'] : List Char).map toLowerChar ++ ' ' :: (['b'] : List Char).map toLowerChar :=
  normalize_collapse_amended ['a'] [' ', '\t'] ['b'] (by decide) (by decide)
    (by decide) (by decide) (by decide) ⟨' ', by decide, by decide⟩

-- ### C7: the chunker

theorem chunkText_unfold (text : String) (sizeWords overlapWords : Nat)
    (hne : normalize text ≠ "") :
    chunkText text sizeWords overlapWords =
      (chunkWindows (wordsOfChars (normalize text).data) sizeWords overlapWords 0).map
        (fun ws => (⟨joinSpace ws⟩ : String)) := by
  simp only [chunkText]
  rw [if_neg hne]

theorem window_words_roundtrip (text : String) (s n : Nat) :
    wordsOfString
        (⟨joinSpace (((wordsOfChars (normalize text).data).drop s).take n)⟩ : String) =
      (((wordsOfChars (normalize text).data).drop s).take n).map
        (fun wcs => (⟨wcs⟩ : String)) := by
  unfold wordsOfString
  have hsub : ∀ w ∈ ((wordsOfChars (normalize text).data).drop s).take n,
      w ∈ wordsOfChars (normalize text).data := by
    intro w hw
    exact (List.drop_sublist s _).subset ((List.take_sublist n _).subset hw)
  by_cases hnil : ((wordsOfChars (normalize text).data).drop s).take n = []
  · rw [hnil]
    simp [wordsOfChars, joinSpace, splitOnSpace]
  · rw [show ((⟨joinSpace (((wordsOfChars (normalize text).data).drop s).take n)⟩ :
        String)).data = joinSpace (((wordsOfChars (normalize text).data).drop s).take n)
      from rfl]
    rw [wordsOfChars_joinSpace _
      (fun w hw => wordsOfChars_mem_ne_nil _ w (hsub w hw))
      (fun w hw => wordsOfChars_mem_no_space _ w (hsub w hw))]

/-- C7: for every text whose normalization is non-empty and parameters with
windowWords strictly greater than overlapWords, `chunkText` returns a
non-empty chunk list; the word sequence of chunk `i` is the window of
`windowWords` words of the normalized text starting at word offset
`i * (windowWords - overlapWords)` — chunks are indexed `0..N-1`
contiguously in increasing start-offset order; each chunk contains at most
`windowWords` words; and every pair of consecutive chunks shares exactly
`overlapWords` words: the earlier chunk of each pair is a full window whose
last `overlapWords` words are the first `overlapWords` words of the next
chunk.  (This holds for the final pair too, which the claim's "except
possibly the final pair" allows.) -/
theorem chunkText_spec (text : String) (sizeWords overlapWords : Nat)
    (hov : overlapWords < sizeWords) (hne : normalize text ≠ "") :
    chunkText text sizeWords overlapWords ≠ [] ∧
    (∀ (i : Nat) (hi : i < (chunkText text sizeWords overlapWords).length),
      wordsOfString ((chunkText text sizeWords overlapWords).get ⟨i, hi⟩) =
        (((wordsOfChars (normalize text).data).drop
            (i * (sizeWords - overlapWords))).take sizeWords).map
          (fun wcs => (⟨wcs⟩ : String)) ∧
      (wordsOfString ((chunkText text sizeWords overlapWords).get ⟨i, hi⟩)).length
        ≤ sizeWords) ∧
    (∀ (i : Nat) (hi1 : i + 1 < (chunkText text sizeWords overlapWords).length),
      (wordsOfString ((chunkText text sizeWords overlapWords).get
          ⟨i, by omega⟩)).length = sizeWords ∧
      (wordsOfString ((chunkText text sizeWords overlapWords).get
          ⟨i, by omega⟩)).drop (sizeWords - overlapWords) =
        (wordsOfString ((chunkText text sizeWords overlapWords).get
          ⟨i + 1, hi1⟩)).take overlapWords) := by
  have hsz : 1 ≤ sizeWords := by omega
  have hwords : wordsOfChars (normalize text).data ≠ [] :=
    wordsOfChars_normalize_ne_nil text hne
  have hwlen : 0 < (wordsOfChars (normalize text).data).length :=
    List.length_pos.2 hwords
  have hstep : max (sizeWords - overlapWords) 1 = sizeWords - overlapWords :=
    Nat.max_eq_left (by omega)
  have hct := chunkText_unfold text sizeWords overlapWords hne
  have hget : ∀ (i : Nat) (hi : i < (chunkText text sizeWords overlapWords).length),
      (chunkText text sizeWords overlapWords).get ⟨i, hi⟩ =
        (⟨joinSpace (((wordsOfChars (normalize text).data).drop
          (i * (sizeWords - overlapWords))).take sizeWords)⟩ : String) := by
    intro i hi
    have hi' : i < (chunkWindows (wordsOfChars (normalize text).data)
        sizeWords overlapWords 0).length := by
      rw [hct] at hi
      simpa using hi
    rw [List.get_of_eq hct, List.get_eq_getElem, List.getElem_map]
    have hwin := chunkWindows_get (wordsOfChars (normalize text).data)
      sizeWords overlapWords hsz i 0 hi'
    rw [List.get_eq_getElem] at hwin
    rw [hwin, hstep]
    rw [Nat.zero_add]
  have hlen_eq : (chunkText text sizeWords overlapWords).length =
      (chunkWindows (wordsOfChars (normalize text).data)
        sizeWords overlapWords 0).length := by
    rw [hct, List.length_map]
  refine ⟨?_, ?_, ?_⟩
  · rw [hct]
    intro hcon
    exact chunkWindows_length_pos _ _ _ 0 hwlen hsz (List.map_eq_nil_iff.1 hcon)
  · intro i hi
    rw [hget i hi, window_words_roundtrip]
    refine ⟨rfl, ?_⟩
    rw [List.length_map, List.length_take]
    exact le_trans (Nat.min_le_left _ _) (le_refl _)
  · intro i hi1
    have hfull := chunkWindows_not_last_lt (wordsOfChars (normalize text).data)
      sizeWords overlapWords hsz i 0 (by rw [hlen_eq] at hi1; exact hi1)
    rw [hstep, Nat.zero_add] at hfull
    have hi : i < (chunkText text sizeWords overlapWords).length := by omega
    rw [hget i hi, hget (i + 1) hi1, window_words_roundtrip, window_words_roundtrip]
    constructor
    · rw [List.length_map, List.length_take, List.length_drop]
      omega
    · rw [← List.map_drop, ← List.map_take]
      congr 1
      rw [List.drop_take, List.drop_drop]
      have h1 : sizeWords - (sizeWords - overlapWords) = overlapWords := by omega
      have h2 : i * (sizeWords - overlapWords) + (sizeWords - overlapWords) =
          (i + 1) * (sizeWords - overlapWords) := by ring
      rw [h1, h2, List.take_take, Nat.min_eq_left (by omega)]

/-- Witness for C7: the text "a b c" with windowWords 2, overlapWords 1
(two chunks "a b", "b c" overlapping in one word). -/
theorem chunkText_spec_witness :
    (1 : Nat) < 2 ∧ normalize "a b c" ≠ "" ∧ chunkText "a b c" 2 1 ≠ [] :=
  ⟨by decide, by decide, (chunkText_spec "a b c" 2 1 (by decide) (by decide)).1⟩

-- ### C2: the exact-chunk tier

theorem length_insertByScore {α : Type} (score : α → ℚ) (x : α) :
    ∀ (l : List α), (insertByScore score x l).length = l.length + 1 := by
  intro l
  induction l with
  | nil => rfl
  | cons y ys ih =>
    unfold insertByScore
    split
    · simp [ih]
    · simp

theorem length_sortByScoreDesc {α : Type} (score : α → ℚ) :
    ∀ (l : List α), (sortByScoreDesc score l).length = l.length := by
  intro l
  induction l with
  | nil => rfl
  | cons x xs ih =>
    unfold sortByScoreDesc
    rw [length_insertByScore, ih, List.length_cons]

/-- C2: for every query whose whole-document hash lookup misses and for
which at least one submitted chunk's hash is found in the store, the matcher
returns an `exact_chunks` result whose per-candidate-document score equals
the candidate's matched-chunk count divided by the total number of chunks of
the SUBMITTED document (not of the candidate — the candidate's own chunk
count is carried separately in `chunkCount`), with candidates sorted
descending by score; and the fuzzy tier is never consulted: the result is
the same value for every fuzzy oracle, even when every score is low. -/
theorem searchDocument_exact_tier (hashFn : String → String) (store : Store)
    (rawText : String)
    (h0 : normalize rawText ≠ "")
    (hdoc : store.documents.find?
      (fun d => d.docHash = hashFn (normalize rawText)) = none)
    (hmatch : ∃ c ∈ store.chunks,
      ((chunkText (normalize rawText) 600 120).map hashFn).contains c.chunkHash) :
    ∃ rs : List ExactResult,
      (∀ fuzzyQuery, searchDocument hashFn fuzzyQuery store rawText = .exactChunks rs) ∧
      rs ≠ [] ∧
      (∀ r ∈ rs,
        r.score = (r.matchedChunks : ℚ) /
          ((chunkText (normalize rawText) 600 120).length : ℚ) ∧
        r.matchedChunks = ((store.chunks.filter (fun c =>
            ((chunkText (normalize rawText) 600 120).map hashFn).contains
              c.chunkHash)).filter
          (fun c => c.documentId = r.docId)).length ∧
        r.chunkCount = countChunks store r.docId) ∧
      List.Sorted (fun a b => b.score ≤ a.score) rs := by
  have hchunks_ne : chunkText (normalize rawText) 600 120 ≠ [] := by
    intro hcon
    obtain ⟨c, hc, hcc⟩ := hmatch
    rw [hcon] at hcc
    simp at hcc
  have hrows_ne : store.chunks.filter (fun c =>
      ((chunkText (normalize rawText) 600 120).map hashFn).contains c.chunkHash) ≠ [] := by
    obtain ⟨c, hc, hcc⟩ := hmatch
    intro hcon
    have hmem : c ∈ store.chunks.filter (fun c =>
        ((chunkText (normalize rawText) 600 120).map hashFn).contains c.chunkHash) :=
      List.mem_filter.2 ⟨hc, hcc⟩
    rw [hcon] at hmem
    simp at hmem
  have hgrouped_ne := groupByDoc_ne_nil hrows_ne
  have hhlen : ((chunkText (normalize rawText) 600 120).map hashFn).length ≠ 0 := by
    rw [List.length_map]
    intro hcon
    exact hchunks_ne (List.length_eq_zero.1 hcon)
  refine ⟨sortByScoreDesc ExactResult.score
    ((groupByDoc (store.chunks.filter (fun c =>
        ((chunkText (normalize rawText) 600 120).map hashFn).contains c.chunkHash))).map
      (fun p => ⟨p.1, p.2, countChunks store p.1,
        if ((chunkText (normalize rawText) 600 120).map hashFn).length ≠ 0 then
          (p.2 : ℚ) / (((chunkText (normalize rawText) 600 120).map hashFn).length : ℚ)
        else 0⟩)), ?_, ?_, ?_, ?_⟩
  · intro fq
    simp only [searchDocument]
    rw [if_neg h0]
    split
    · next d hd =>
      rw [hdoc] at hd
      cases hd
    · next hd =>
      rw [if_neg hchunks_ne, if_pos hgrouped_ne]
  · intro hcon
    have hlen := length_sortByScoreDesc ExactResult.score
      ((groupByDoc (store.chunks.filter (fun c =>
        ((chunkText (normalize rawText) 600 120).map hashFn).contains
          c.chunkHash))).map
      (fun p => (⟨p.1, p.2, countChunks store p.1,
        if ((chunkText (normalize rawText) 600 120).map hashFn).length ≠ 0 then
          (p.2 : ℚ) / (((chunkText (normalize rawText) 600 120).map hashFn).length : ℚ)
        else 0⟩ : ExactResult)))
    rw [hcon] at hlen
    simp only [List.length_nil, List.length_map] at hlen
    exact hgrouped_ne (List.length_eq_zero.1 hlen.symm)
  · intro r hr
    have hr2 := (mem_sortByScoreDesc _ _ _).1 hr
    rcases List.mem_map.1 hr2 with ⟨p, hp, hpr⟩
    have hgm := groupByDoc_mem hp
    rw [← hpr]
    refine ⟨?_, ?_, rfl⟩
    · simp only [if_pos hhlen]
      rw [List.length_map]
    · exact hgm.1
  · exact sorted_sortByScoreDesc _ _

/-- Witness for C2: the store holds one chunk whose hash equals the hash of
the single submitted chunk of the text "a" (with the identity digest), and
the documents table has no whole-document hash match. -/
theorem searchDocument_exact_tier_witness :
    normalize "a" ≠ "" ∧
    ∃ rs : List ExactResult,
      (∀ fuzzyQuery, searchDocument id fuzzyQuery
        ⟨[], [⟨7, 0, "a", "a", 1⟩], 1⟩ "a" = .exactChunks rs) ∧
      rs ≠ [] ∧
      (∀ r ∈ rs,
        r.score = (r.matchedChunks : ℚ) /
          ((chunkText (normalize "a") 600 120).length : ℚ) ∧
        r.matchedChunks = (((⟨[], [⟨7, 0, "a", "a", 1⟩], 1⟩ : Store).chunks.filter
            (fun c => ((chunkText (normalize "a") 600 120).map id).contains
              c.chunkHash)).filter
          (fun c => c.documentId = r.docId)).length ∧
        r.chunkCount = countChunks ⟨[], [⟨7, 0, "a", "a", 1⟩], 1⟩ r.docId) ∧
      List.Sorted (fun a b => b.score ≤ a.score) rs :=
  ⟨by decide, searchDocument_exact_tier id ⟨[], [⟨7, 0, "a", "a", 1⟩], 1⟩ "a"
    (by decide) rfl ⟨⟨7, 0, "a", "a", 1⟩, by decide, by decide⟩⟩

-- ### C3: ingest/evaluate round trip

theorem ingest_foldl_documents (hashFn : String → String) (documentId : Nat) :
    ∀ (l : List (Nat × String)) (acc : Store × Nat),
      (l.foldl (ingestChunkStep hashFn documentId) acc).1.documents =
        acc.1.documents := by
  intro l
  induction l with
  | nil => intro acc; rfl
  | cons p ps ih =>
    intro acc
    rw [List.foldl_cons, ih]
    simp only [ingestChunkStep]
    split
    · rfl
    · rfl

theorem searchDocument_document_hit (hashFn : String → String)
    (fq : String → List FuzzyRow) (store : Store) (u : String) (d : StoredDoc)
    (hne : normalize u ≠ "")
    (hfind : store.documents.find? (fun dd => dd.docHash = hashFn (normalize u)) =
      some d) :
    searchDocument hashFn fq store u = .document d.id 1 := by
  simp only [searchDocument]
  rw [if_neg hne, hfind]

/-- C3 counterexample: ingesting the empty text into the empty store
succeeds with status `imported` (ingestion has no empty-input guard and
stores a document row keyed by the hash of the empty normalized text), but
evaluating the identically-normalized empty text afterwards returns the
empty `fuzzy_trigram` result — evaluation returns early on empty normalized
input, before the whole-document hash lookup — and not a `document`-tier
match with score 1.0 as the claim requires for every document text. -/
theorem ingest_empty_roundtrip_counterexample :
    (ingestDocument id ⟨[], [], 1⟩ "" "f").1 = .imported 1 0 ∧
    searchDocument id (fun _ => []) (ingestDocument id ⟨[], [], 1⟩ "" "f").2 "" =
      .fuzzyTrigram [] :=
  ⟨rfl, rfl⟩

/-- C3 amended: for every document text whose normalization is NON-EMPTY,
after a successful ingestion of that text (either the `imported` or the
`duplicate` outcome), evaluating any text with the same normalization
returns the `document`-tier match with score 1.0: ingestion stored (or
found) the digest of the normalized text under which evaluation looks the
document up. -/
theorem ingest_then_search_document (hashFn : String → String)
    (fq : String → List FuzzyRow) (store : Store) (rawText filename u : String)
    (hne : normalize rawText ≠ "") (hu : normalize u = normalize rawText) :
    ∃ docId, searchDocument hashFn fq
      (ingestDocument hashFn store rawText filename).2 u = .document docId 1 := by
  have hu_ne : normalize u ≠ "" := by rw [hu]; exact hne
  cases hfind : store.documents.find?
      (fun d => d.docHash = hashFn (normalize rawText)) with
  | some d =>
    have hstore : (ingestDocument hashFn store rawText filename).2 = store := by
      simp only [ingestDocument]
      rw [hfind]
    rw [hstore]
    exact ⟨d.id, searchDocument_document_hit hashFn fq store u d hu_ne
      (by rw [hu]; exact hfind)⟩
  | none =>
    have hstore : (ingestDocument hashFn store rawText filename).2 =
        ((chunkText (normalize rawText) 600 120).enum.foldl
          (ingestChunkStep hashFn store.nextDocId)
          (⟨store.documents ++
              [⟨store.nextDocId, filename, hashFn (normalize rawText)⟩],
            store.chunks, store.nextDocId + 1⟩, 0)).1 := by
      simp only [ingestDocument]
      rw [hfind]
    rw [hstore]
    refine ⟨store.nextDocId, ?_⟩
    refine searchDocument_document_hit hashFn fq _ u
      ⟨store.nextDocId, filename, hashFn (normalize rawText)⟩ hu_ne ?_
    · have hdocs := ingest_foldl_documents hashFn store.nextDocId
        (chunkText (normalize rawText) 600 120).enum
        (⟨store.documents ++
            [⟨store.nextDocId, filename, hashFn (normalize rawText)⟩],
          store.chunks, store.nextDocId + 1⟩, 0)
      rw [hdocs, List.find?_append]
      have h1 : store.documents.find?
          (fun dd => dd.docHash = hashFn (normalize u)) = none := by
        rw [hu]
        exact hfind
      rw [h1]
      have h2 : ([(⟨store.nextDocId, filename,
          hashFn (normalize rawText)⟩ : StoredDoc)]).find?
          (fun dd => dd.docHash = hashFn (normalize u)) =
          some ⟨store.nextDocId, filename, hashFn (normalize rawText)⟩ :=
        List.find?_cons_of_pos _ (by rw [hu]; simp)
      rw [h2]
      rfl

/-- Witness for C3 amended: ingest "a" into the empty store, then evaluate
"a" again — the document-tier match is returned with score 1. -/
theorem ingest_then_search_document_witness :
    normalize "a" ≠ "" ∧
    ∃ docId, searchDocument id (fun _ => [])
      (ingestDocument id ⟨[], [], 1⟩ "a" "f").2 "a" = .document docId 1 :=
  ⟨by decide, ingest_then_search_document id (fun _ => []) ⟨[], [], 1⟩ "a" "f" "a"
    (by decide) rfl⟩

end DocCheck
